import Mathlib

/-!
Formal model of the deliberate-reasoning-engine server core
(src/index.ts, src/rate-limiter.ts): the thought graph, insertion with
dependency validation and cycle detection, cascading invalidation,
the query engine and the token-bucket rate limiter.
-/

namespace DRE

/-- Status of a thought: `active` or `stale` (src/types.ts). -/
inductive Status where
  | active
  | stale
deriving DecidableEq, Repr

/-- The closed set of semantic thought types (src/types.ts `ThoughtType`). -/
inductive ThoughtType where
  | objective
  | hypothesis
  | assumption
  | question
  | sub_problem
  | evidence
  | action
  | synthesis
  | critique
deriving DecidableEq, Repr

/-- An action request attached to a thought; parameters are an opaque
key-value record (src/types.ts `ActionRequest`). -/
structure ActionRequest where
  tool : String
  parameters : List (String × String)
deriving DecidableEq, Repr

/-- A thought node (src/types.ts `Thought`).  The JS ISO timestamp string is
modelled by its millisecond value. -/
structure Thought where
  id : String
  thought : String
  thought_type : ThoughtType
  dependencies : List String
  confidence : Option ℚ
  action_request : Option ActionRequest
  timestamp : ℤ
  status : Status
deriving DecidableEq, Repr

/-- The graph's `Map<string, Thought>` in insertion order
(`ReasoningGraph.thoughts`).  JS `Map` iterates in insertion order and
keeps a key's original position on overwrite, which `mapSet` mirrors. -/
abbrev Graph := List Thought

/-- `this.graph.thoughts.get(tid)`. -/
def findThought (g : Graph) (tid : String) : Option Thought :=
  g.find? (fun t => t.id == tid)

/-- The keys of the graph map, in insertion order. -/
def graphIds (g : Graph) : List String := g.map (fun t => t.id)

/-- The status stored under an id, when present. -/
def statusOf (g : Graph) (tid : String) : Option Status :=
  (findThought g tid).map (fun t => t.status)

/-- Number of currently active thoughts. -/
def countActive (g : Graph) : Nat :=
  (g.filter (fun t => t.status == Status.active)).length

/-- `thought.status = 'stale'` for the entry keyed `tid`
(the in-place mutation in `markStale`). -/
def setStale (g : Graph) (tid : String) : Graph :=
  g.map (fun t => if t.id == tid then { t with status := Status.stale } else t)

/-- `this.graph.thoughts.set(t.id, t)`: overwrite in place when the key
exists, else append. -/
def mapSet (g : Graph) (t : Thought) : Graph :=
  if (findThought g t.id).isSome then
    g.map (fun u => if u.id == t.id then t else u)
  else g ++ [t]

/-- The `for (const [id, t] of this.graph.thoughts.entries())` loop body of
`markStale` (src/index.ts:746-763), abstracted over the recursive call:
thoughts that list `tid` among their dependencies and are still active are
recursively staled, the returned id lists concatenated in order. -/
def staleStep (rec : Graph → String → Graph × List String) (tid : String) :
    List String → Graph → Graph × List String
  | [], g => (g, [])
  | id :: ids, g =>
    match findThought g id with
    | some t =>
      if tid ∈ t.dependencies ∧ t.status = Status.active then
        let r := rec g id
        let r2 := staleStep rec tid ids r.1
        (r2.1, r.2 ++ r2.2)
      else staleStep rec tid ids g
    | none => staleStep rec tid ids g

/-- Fuelled version of `markStale` (src/index.ts:746-763).  If the thought
exists and is active it is staled and reported first, then every entry of
the map is scanned for active dependents, which are staled recursively.
The fuel only bounds the recursion depth; `markStale` supplies more fuel
than there are active thoughts, so the 0-fuel branch is never reached. -/
def markStaleFuel : Nat → Graph → String → Graph × List String
  | 0, g, _ => (g, [])
  | fuel + 1, g, tid =>
    match findThought g tid with
    | some t =>
      if t.status = Status.active then
        let g1 := setStale g tid
        let r := staleStep (fun g' id => markStaleFuel fuel g' id) tid (graphIds g1) g1
        (r.1, tid :: r.2)
      else (g, [])
    | none => (g, [])

/-- `markStale` (src/index.ts:746-763). -/
def markStale (g : Graph) (tid : String) : Graph × List String :=
  markStaleFuel (countActive g + 1) g tid

/-- Typed failures of the core operations.  The source distinguishes them by
distinct `McpError` messages ('Thought not found', 'Thought is not an
assumption', 'Dependency "…" does not exist', 'Circular dependency
detected'). -/
inductive DREError where
  | notFound
  | notAssumption
  | dangling (depId : String)
  | cycleDetected
deriving DecidableEq, Repr

/-- Adjacency used by the cycle-detection DFS of `validateDependencies`:
the virtual candidate node `tmp` has the candidate dependencies as edges,
every other node its stored dependencies (`…?.dependencies || []`). -/
def adjOf (g : Graph) (cdeps : List String) (tmp : String) (n : String) : List String :=
  if n == tmp then cdeps
  else
    match findThought g n with
    | some t => t.dependencies
    | none => []

/-- The `for (const depId of deps) if (hasCycle(depId)) return true` loop,
abstracted over the recursive call.  `none` signals a detected cycle,
`some V` returns the enlarged visited set. -/
def dfsList (rec : String → List String → List String → Option (List String)) :
    List String → List String → List String → Option (List String)
  | [], V, _ => some V
  | d :: ds, V, S =>
    match rec d V S with
    | none => none
    | some V2 => dfsList rec ds V2 S

/-- The `hasCycle` DFS of `validateDependencies` (src/index.ts:612-628),
with visited set `V` and recursion stack `S`; the stack entry is removed on
return simply by passing `S` by value.  Out of fuel conservatively reports
a cycle; `validateDependencies` supplies fuel larger than any possible
recursion depth. -/
def dfsFuel (g : Graph) (cdeps : List String) (tmp : String) :
    Nat → String → List String → List String → Option (List String)
  | 0, _, _, _ => none
  | fuel + 1, n, V, S =>
    if n ∈ S then none
    else if n ∈ V then some V
    else dfsList (fun d V' S' => dfsFuel g cdeps tmp fuel d V' S') (adjOf g cdeps tmp n) (n :: V) (n :: S)

/-- Total number of dependency edges stored in the graph. -/
def totalDeps (g : Graph) : Nat := (g.map (fun t => t.dependencies.length)).sum

/-- `validateDependencies` (src/index.ts:599-633): first reject the first
dependency id absent from the graph, then run the cycle-detecting DFS from
the virtual candidate node `tmp`. -/
def validateDependencies (g : Graph) (deps : List String) (tmp : String) :
    Except DREError Unit :=
  match deps.find? (fun d => (findThought g d).isNone) with
  | some d => .error (.dangling d)
  | none =>
    match dfsFuel g deps tmp (g.length + totalDeps g + deps.length + 2) tmp [] [] with
    | none => .error .cycleDetected
    | some _ => .ok ()

/-- The parsed input of `log_thought` (src/validation.ts `LogThoughtSchema`,
after defaults are applied). -/
structure LogInput where
  thought : String
  thought_type : ThoughtType
  dependencies : List String
  confidence : Option ℚ
  action_request : Option ActionRequest
deriving DecidableEq, Repr

/-- `handleLogThought` (src/index.ts:635-650): validate dependencies, then
insert a fresh active thought.  The generated id, the DFS virtual id and
the timestamp are parameters of the model. -/
def handleLogThought (g : Graph) (input : LogInput) (tmp fid : String) (ts : ℤ) :
    Except DREError Graph :=
  match validateDependencies g input.dependencies tmp with
  | .error e => .error e
  | .ok _ =>
    .ok (mapSet g
      { id := fid, thought := input.thought, thought_type := input.thought_type,
        dependencies := input.dependencies, confidence := input.confidence,
        action_request := input.action_request, timestamp := ts, status := .active })

/-- The critique thought appended by `handleInvalidateAssumption`
(src/index.ts:715-722): active, of type critique, single dependency on the
invalidated assumption, content embedding the reason. -/
def critiqueOf (t : Thought) (tid reason cid : String) (ts : ℤ) : Thought :=
  { id := cid,
    thought := "Assumption invalidated: \"" ++ t.thought ++ "\". Reason: " ++ reason,
    thought_type := .critique, dependencies := [tid], confidence := none,
    action_request := none, timestamp := ts, status := .active }

/-- `handleInvalidateAssumption` (src/index.ts:700-744): the thought must
exist and be an assumption; the cascade is run and a critique appended. -/
def handleInvalidateAssumption (g : Graph) (tid reason cid : String) (ts : ℤ) :
    Except DREError (Graph × List String × String) :=
  match findThought g tid with
  | none => .error .notFound
  | some t =>
    if t.thought_type = ThoughtType.assumption then
      let r := markStale g tid
      .ok (mapSet r.1 (critiqueOf t tid reason cid ts), r.2, cid)
    else .error .notAssumption

/-- The five query/sort modes of `query_thoughts`
(src/validation.ts `QueryThoughtsSchema`). -/
inductive QueryType where
  | by_type
  | by_dependency
  | by_content
  | by_confidence
  | recent
deriving DecidableEq, Repr

/-- The parsed input of `query_thoughts` after defaults
(query_type `recent`, limit 20, offset 0). -/
structure QueryInput where
  query_type : QueryType
  thought_type : Option ThoughtType
  dependency_of : Option String
  depends_on : Option String
  content_search : Option String
  min_confidence : Option ℚ
  max_confidence : Option ℚ
  status : Option Status
  limit : Nat
  offset : Nat
deriving DecidableEq, Repr

/-- `need` is a prefix of the first argument. -/
def startsWithChars : List Char → List Char → Bool
  | _, [] => true
  | [], _ :: _ => false
  | c :: cs, d :: ds => c == d && startsWithChars cs ds

/-- `need` occurs as a contiguous substring of the character list. -/
def hasSubChars (need : List Char) : List Char → Bool
  | [] => startsWithChars [] need
  | c :: rest => startsWithChars (c :: rest) need || hasSubChars need rest

/-- JS `hay.includes(need)` on strings. -/
def containsStr (hay need : String) : Bool := hasSubChars need.data hay.data

/-- The conjunctive filter pipeline of `handleQueryThoughts`
(src/index.ts:802-837), in source order: type, status, case-insensitive
content substring, min/max confidence (a thought with no confidence never
matches), `dependency_of` (empty result when the target id is absent),
`depends_on`.  The string-valued guards `if (input.content_search)`,
`if (input.dependency_of)` and `if (input.depends_on)` are JS truthiness
tests, so a present-but-empty string skips the filter; the confidence
guards use `!== undefined`, so a present 0 does filter; the two enum
fields are never empty strings, so presence alone decides them. -/
def filterThoughts (g : Graph) (q : QueryInput) : List Thought :=
  let l1 := match q.thought_type with
    | some tt => g.filter (fun t => t.thought_type == tt)
    | none => g
  let l2 := match q.status with
    | some s => l1.filter (fun t => t.status == s)
    | none => l1
  let l3 := match q.content_search with
    | some s =>
      if s = "" then l2
      else l2.filter (fun t => containsStr t.thought.toLower s.toLower)
    | none => l2
  let l4 := match q.min_confidence with
    | some m => l3.filter (fun t =>
        match t.confidence with
        | some c => decide (m ≤ c)
        | none => false)
    | none => l3
  let l5 := match q.max_confidence with
    | some m => l4.filter (fun t =>
        match t.confidence with
        | some c => decide (c ≤ m)
        | none => false)
    | none => l4
  let l6 := match q.dependency_of with
    | some x =>
      if x = "" then l5
      else
        match findThought g x with
        | some target => l5.filter (fun t => target.dependencies.contains t.id)
        | none => []
    | none => l5
  match q.depends_on with
  | some x => if x = "" then l6 else l6.filter (fun t => t.dependencies.contains x)
  | none => l6

/-- The JSON name of a thought type, used by the `by_type` sort
(`localeCompare`, modelled as lexicographic order). -/
def typeKey : ThoughtType → String
  | .objective => "objective"
  | .hypothesis => "hypothesis"
  | .assumption => "assumption"
  | .question => "question"
  | .sub_problem => "sub_problem"
  | .evidence => "evidence"
  | .action => "action"
  | .synthesis => "synthesis"
  | .critique => "critique"

/-- `t.confidence || 0` in the `by_confidence` sort. -/
def confVal (t : Thought) : ℚ := t.confidence.getD 0

/-- The stable sort comparators of `handleQueryThoughts`
(src/index.ts:839-856), as `≤`-style boolean predicates. -/
def sortLe (qt : QueryType) (a b : Thought) : Bool :=
  match qt with
  | .recent => decide (b.timestamp ≤ a.timestamp)
  | .by_confidence => decide (confVal b ≤ confVal a)
  | .by_type => decide (typeKey a.thought_type ≤ typeKey b.thought_type)
  | .by_content => decide (a.thought ≤ b.thought)
  | .by_dependency => decide (b.dependencies.length ≤ a.dependencies.length)

/-- The `thoughts.sort(...)` step (stable, as JS `Array.prototype.sort`). -/
def sortThoughts (qt : QueryType) (l : List Thought) : List Thought :=
  l.mergeSort (sortLe qt)

/-- A returned thought together with its dependency count and the thoughts
depending on it (src/index.ts:871-877). -/
structure Enriched where
  thought : Thought
  dependencies_count : Nat
  dependent_thoughts : List (String × ThoughtType)
deriving DecidableEq, Repr

/-- The response of `query_thoughts`: `total_results` plus the returned
page. -/
structure QueryResult where
  total_results : Nat
  results : List Enriched
deriving DecidableEq, Repr

/-- Augment a returned thought with dependency count and dependents
(computed by a full scan of the graph). -/
def enrich (g : Graph) (t : Thought) : Enriched :=
  { thought := t, dependencies_count := t.dependencies.length,
    dependent_thoughts :=
      (g.filter (fun u => u.dependencies.contains t.id)).map
        (fun u => (u.id, u.thought_type)) }

/-- `handleQueryThoughts` (src/index.ts:801-881): filter, sort, read the
total, then `slice(offset, offset + limit)` and enrich the page. -/
def handleQueryThoughts (g : Graph) (q : QueryInput) : QueryResult :=
  let sorted := sortThoughts q.query_type (filterThoughts g q)
  { total_results := sorted.length,
    results := ((sorted.drop q.offset).take q.limit).map (enrich g) }

/-- Configuration of one token bucket (src/rate-limiter.ts
`RateLimitConfig`). -/
structure RateLimitConfig where
  maxTokens : ℚ
  refillRate : ℚ
  windowMs : Option ℤ
deriving DecidableEq, Repr

/-- State of a `TokenBucketRateLimiter`: real-valued tokens, capacity,
refill rate (tokens/second), last-refill timestamp, window length and the
observational per-(client, window) request counter. -/
structure Bucket where
  tokens : ℚ
  lastRefill : ℤ
  maxTokens : ℚ
  refillRate : ℚ
  windowMs : ℤ
  requestCount : List ((String × ℤ) × Nat)
deriving DecidableEq, Repr

/-- The `TokenBucketRateLimiter` constructor: full bucket,
`windowMs = config.windowMs || 60000` (JS falsy: 0 also defaults). -/
def mkBucket (cfg : RateLimitConfig) (now : ℤ) : Bucket :=
  { tokens := cfg.maxTokens, lastRefill := now, maxTokens := cfg.maxTokens,
    refillRate := cfg.refillRate,
    windowMs :=
      match cfg.windowMs with
      | some w => if w = 0 then 60000 else w
      | none => 60000,
    requestCount := [] }

/-- The result record of `checkLimit`. -/
structure CheckResult where
  allowed : Bool
  retryAfter : Option ℤ
  remaining : ℤ
deriving DecidableEq, Repr

/-- `refillTokens` (src/rate-limiter.ts:23-30): lazily add
`elapsedSeconds * refillRate` tokens, capped at capacity. -/
def refillTokens (b : Bucket) (now : ℤ) : Bucket :=
  { b with
    tokens := min b.maxTokens (b.tokens + ((now - b.lastRefill : ℤ) : ℚ) / 1000 * b.refillRate),
    lastRefill := now }

/-- `requestCount.get(k) || 0`. -/
def rcGet (rc : List ((String × ℤ) × Nat)) (k : String × ℤ) : Nat :=
  match rc.find? (fun e => e.1 == k) with
  | some e => e.2
  | none => 0

/-- `requestCount.set(k, v)`: overwrite in place or append. -/
def rcSet (rc : List ((String × ℤ) × Nat)) (k : String × ℤ) (v : Nat) :
    List ((String × ℤ) × Nat) :=
  if (rc.find? (fun e => e.1 == k)).isSome then
    rc.map (fun e => if e.1 == k then (k, v) else e)
  else rc ++ [(k, v)]

/-- `checkLimit` (src/rate-limiter.ts:32-66): refill, clean expired window
counters, then allow and deduct when `tokens ≥ cost`, else deny with
`retryAfter = ceil((cost - tokens) / refillRate * 1000)` ms.  The window
key `clientId:windowIndex` is modelled as the pair. -/
def checkLimit (b : Bucket) (now : ℤ) (clientId : String) (cost : ℚ) :
    CheckResult × Bucket :=
  let b1 := refillTokens b now
  let windowKey : String × ℤ := (clientId, Int.fdiv now b1.windowMs)
  let cutoff : ℤ := Int.fdiv (now - b1.windowMs) b1.windowMs
  let rc1 := b1.requestCount.filter (fun e => !(decide (e.1.2 < cutoff)))
  if cost ≤ b1.tokens then
    let tokens2 := b1.tokens - cost
    let rc2 := rcSet rc1 windowKey (rcGet rc1 windowKey + 1)
    ({ allowed := true, retryAfter := none, remaining := Int.floor tokens2 },
     { b1 with tokens := tokens2, requestCount := rc2 })
  else
    ({ allowed := false,
       retryAfter := some (Int.ceil ((cost - b1.tokens) / b1.refillRate * 1000)),
       remaining := Int.floor b1.tokens },
     { b1 with requestCount := rc1 })

/-- `N` consecutive `checkLimit(client, cost = 1)` calls at a fixed wall
clock, threading the bucket; the boolean records whether every call was
allowed. -/
def iterCheck (now : ℤ) (clientId : String) : Nat → Bucket → Bucket × Bool
  | 0, b => (b, true)
  | n + 1, b =>
    let r := checkLimit b now clientId 1
    let rest := iterCheck now clientId n r.2
    (rest.1, r.1.allowed && rest.2)

/-- The graph a fresh session starts from. -/
def emptyGraph : Graph := []

/-- One successful mutating operation of the server: a `log_thought`
insertion or an `invalidate_assumption`.  The freshness hypotheses model
the id generator's contract that generated ids do not collide
(spec 4.1: 'No two successful creations may yield the same id'). -/
inductive Step : Graph → Graph → Prop where
  | log (g g' : Graph) (input : LogInput) (tmp fid : String) (ts : ℤ)
      (hfid : fid ∉ graphIds g)
      (hok : handleLogThought g input tmp fid ts = .ok g') : Step g g'
  | invalidate (g g' : Graph) (tid reason cid : String) (ts : ℤ) (out : List String)
      (hcid : cid ∉ graphIds g)
      (hok : handleInvalidateAssumption g tid reason cid ts = .ok (g', out, cid)) :
      Step g g'

/-- Zero or more successful mutating operations. -/
def Steps : Graph → Graph → Prop := Relation.ReflTransGen Step

/-- A graph state produced by some sequence of successful operations
starting from the empty session graph. -/
def ReachableGraph (g : Graph) : Prop := Steps emptyGraph g

/-- `tid` is reachable from `a` by transitively following
reverse-dependency edges through active nodes of `g`: the nodes the
cascade of `invalidate(a)` is specified to stale. -/
inductive Reaches (g : Graph) (a : String) : String → Prop where
  | refl : Reaches g a a
  | step (x tid : String) (t : Thought) (hx : Reaches g a x)
      (hf : findThought g tid = some t) (hdep : x ∈ t.dependencies)
      (hact : t.status = Status.active) : Reaches g a tid

/-- One dependency edge: `x`'s stored thought lists `y` as a dependency. -/
def DStep (g : Graph) (x y : String) : Prop :=
  ∃ t, findThought g x = some t ∧ y ∈ t.dependencies

/-- Zero or more dependency edges. -/
def DepReach (g : Graph) : String → String → Prop := Relation.ReflTransGen (DStep g)

/-- From `x` some node lying on a dependency cycle is reachable. -/
def ReachesCycle (g : Graph) (x : String) : Prop :=
  ∃ y, DepReach g x y ∧ Relation.TransGen (DStep g) y y

/-- The dependency relation over all ids contains no cycle. -/
def Acyclic (g : Graph) : Prop := ∀ x, ¬ Relation.TransGen (DStep g) x x

/-- Every node's dependencies refer to ids inserted strictly earlier
(`seen` accumulates the ids preceding the current suffix). -/
def Ordered : List String → Graph → Prop
  | _, [] => True
  | seen, t :: rest => (∀ d ∈ t.dependencies, d ∈ seen) ∧ Ordered (seen ++ [t.id]) rest

/-- How a single stored thought may change during an operation: unchanged,
or flipped from active to stale (the only mutation the core performs). -/
inductive TEvol : Thought → Thought → Prop where
  | same (t : Thought) : TEvol t t
  | flip (t : Thought) (h : t.status = Status.active) :
      TEvol t { t with status := Status.stale }

/-- Pointwise evolution of a graph: same nodes in the same order, each
unchanged or staled. -/
def Evolves : Graph → Graph → Prop := List.Forall₂ TEvol

/-! ### Basic lemmas about the map operations -/

theorem findThought_some_id {g : Graph} {tid : String} {t : Thought}
    (h : findThought g tid = some t) : t.id = tid := by
  have := List.find?_some h
  simpa using this

theorem findThought_mem {g : Graph} {tid : String} {t : Thought}
    (h : findThought g tid = some t) : t ∈ g :=
  List.mem_of_find?_eq_some h

theorem mem_graphIds_of_findThought {g : Graph} {x : String} {t : Thought}
    (h : findThought g x = some t) : x ∈ graphIds g := by
  have hm := findThought_mem h
  have hid := findThought_some_id h
  simp only [graphIds, List.mem_map]
  exact ⟨t, hm, hid⟩

theorem findThought_cons (a : Thought) (l : Graph) (x : String) :
    findThought (a :: l) x = if a.id = x then some a else findThought l x := by
  by_cases hid : a.id = x <;> simp [findThought, hid]

theorem findThought_isSome_of_mem_graphIds {g : Graph} {x : String}
    (h : x ∈ graphIds g) : (findThought g x).isSome := by
  induction g with
  | nil => simp [graphIds] at h
  | cons a l ih =>
    simp only [graphIds, List.map_cons, List.mem_cons] at h
    rw [findThought_cons]
    by_cases ha : a.id = x
    · simp [ha]
    · rcases h with h | h
      · exact absurd h.symm ha
      · simpa [ha] using ih (by simpa [graphIds] using h)

theorem findThought_none_iff {g : Graph} {x : String} :
    findThought g x = none ↔ x ∉ graphIds g := by
  constructor
  · intro h hx
    have := findThought_isSome_of_mem_graphIds hx
    rw [h] at this
    simp at this
  · intro hx
    cases hf : findThought g x with
    | none => rfl
    | some t => exact absurd (mem_graphIds_of_findThought hf) hx

theorem findThought_map_of_id {f : Thought → Thought}
    (hf : ∀ t, (f t).id = t.id) (g : Graph) (x : String) :
    findThought (g.map f) x = (findThought g x).map f := by
  induction g with
  | nil => simp [findThought]
  | cons a l ih =>
    rw [List.map_cons, findThought_cons, findThought_cons, hf a]
    by_cases ha : a.id = x
    · simp [ha]
    · simp [ha, ih]

theorem setStale_find_ne {g : Graph} {tid x : String} (h : x ≠ tid) :
    findThought (setStale g tid) x = findThought g x := by
  rw [setStale, findThought_map_of_id (fun t => by by_cases ht : t.id = tid <;> simp [ht])]
  cases hf : findThought g x with
  | none => rfl
  | some t =>
    have := findThought_some_id hf
    simp [this, h]

theorem statusOf_setStale_ne {g : Graph} {tid x : String} (h : x ≠ tid) :
    statusOf (setStale g tid) x = statusOf g x := by
  simp [statusOf, setStale_find_ne h]

theorem statusOf_setStale_self {g : Graph} {tid : String} {t : Thought}
    (h : findThought g tid = some t) :
    statusOf (setStale g tid) tid = some Status.stale := by
  rw [statusOf, setStale,
    findThought_map_of_id (fun t => by by_cases ht : t.id = tid <;> simp [ht]), h]
  have := findThought_some_id h
  simp [this]

theorem mapSet_fresh {g : Graph} {t : Thought} (h : t.id ∉ graphIds g) :
    mapSet g t = g ++ [t] := by
  have : findThought g t.id = none := findThought_none_iff.mpr h
  simp [mapSet, this]

theorem findThought_append_left {g l : Graph} {x : String} {t : Thought}
    (h : findThought g x = some t) : findThought (g ++ l) x = some t := by
  simp only [findThought] at h ⊢
  rw [List.find?_append, h]
  rfl

theorem findThought_append_right {g l : Graph} {x : String}
    (h : findThought g x = none) : findThought (g ++ l) x = findThought l x := by
  simp only [findThought] at h ⊢
  rw [List.find?_append, h]
  rfl

/-! ### Lemmas about single-thought and graph evolution -/

theorem TEvol.id_eq {t t' : Thought} (h : TEvol t t') : t'.id = t.id := by
  cases h <;> rfl

theorem TEvol.fields_eq {t t' : Thought} (h : TEvol t t') :
    t'.id = t.id ∧ t'.thought = t.thought ∧ t'.thought_type = t.thought_type ∧
      t'.dependencies = t.dependencies ∧ t'.confidence = t.confidence ∧
      t'.action_request = t.action_request ∧ t'.timestamp = t.timestamp := by
  cases h <;> exact ⟨rfl, rfl, rfl, rfl, rfl, rfl, rfl⟩

theorem TEvol.stale_mono {t t' : Thought} (h : TEvol t t')
    (hs : t.status = Status.stale) : t'.status = Status.stale := by
  cases h with
  | same => exact hs
  | flip h0 => rfl

theorem TEvol.active_back {t t' : Thought} (h : TEvol t t')
    (ha : t'.status = Status.active) : t.status = Status.active := by
  cases h with
  | same => exact ha
  | flip h0 => simp at ha

theorem TEvol.tevol_trans {a b c : Thought} (h1 : TEvol a b) (h2 : TEvol b c) :
    TEvol a c := by
  cases h1 with
  | same => exact h2
  | flip ha =>
    cases h2 with
    | same => exact TEvol.flip _ ha
    | flip hb => simp at hb

theorem Evolves.refl' (g : Graph) : Evolves g g := by
  induction g with
  | nil => exact List.Forall₂.nil
  | cons a l ih => exact List.Forall₂.cons (TEvol.same a) ih

theorem Evolves.evolves_trans {g1 g2 g3 : Graph} (h1 : Evolves g1 g2) (h2 : Evolves g2 g3) :
    Evolves g1 g3 := by
  induction h1 generalizing g3 with
  | nil => cases h2; exact List.Forall₂.nil
  | cons hab h ih =>
    cases h2 with
    | cons hbc h' => exact List.Forall₂.cons (hab.tevol_trans hbc) (ih h')

theorem Evolves.find_some {g g' : Graph} (h : Evolves g g') {x : String} {t : Thought}
    (hf : findThought g x = some t) :
    ∃ t', findThought g' x = some t' ∧ TEvol t t' := by
  induction h with
  | nil => simp [findThought] at hf
  | cons hab hrest ih =>
    rename_i a b l l'
    rw [findThought_cons] at hf
    rw [findThought_cons, hab.id_eq]
    by_cases hid : a.id = x
    · simp only [hid, if_pos rfl] at hf ⊢
      cases hf
      exact ⟨b, rfl, hab⟩
    · rw [if_neg hid] at hf
      rw [if_neg hid]
      exact ih hf

theorem Evolves.find_none {g g' : Graph} (h : Evolves g g') {x : String}
    (hf : findThought g x = none) : findThought g' x = none := by
  induction h with
  | nil => simpa [findThought] using hf
  | cons hab hrest ih =>
    rename_i a b l l'
    rw [findThought_cons] at hf
    rw [findThought_cons, hab.id_eq]
    by_cases hid : a.id = x
    · simp [hid] at hf
    · rw [if_neg hid] at hf
      rw [if_neg hid]
      exact ih hf

theorem Evolves.find_back {g g' : Graph} (h : Evolves g g') {x : String} {t' : Thought}
    (hf : findThought g' x = some t') :
    ∃ t, findThought g x = some t ∧ TEvol t t' := by
  cases hg : findThought g x with
  | none => rw [h.find_none hg] at hf; cases hf
  | some t =>
    obtain ⟨u, hu, htu⟩ := h.find_some hg
    rw [hu] at hf
    cases hf
    exact ⟨t, rfl, htu⟩

theorem Evolves.statusOf_stale {g g' : Graph} (h : Evolves g g') {x : String}
    (hs : statusOf g x = some Status.stale) : statusOf g' x = some Status.stale := by
  cases hf : findThought g x with
  | none => simp [statusOf, hf] at hs
  | some t =>
    have hst : t.status = Status.stale := by simpa [statusOf, hf] using hs
    obtain ⟨t', ht', htt'⟩ := h.find_some hf
    simp [statusOf, ht', htt'.stale_mono hst]

theorem Evolves.statusOf_active_back {g g' : Graph} (h : Evolves g g') {x : String}
    (ha : statusOf g' x = some Status.active) : statusOf g x = some Status.active := by
  cases hf : findThought g' x with
  | none => simp [statusOf, hf] at ha
  | some t' =>
    have hst : t'.status = Status.active := by simpa [statusOf, hf] using ha
    obtain ⟨t, ht, htt'⟩ := h.find_back hf
    simp [statusOf, ht, htt'.active_back hst]

theorem Evolves.statusOf_isSome {g g' : Graph} (h : Evolves g g') {x : String}
    (hs : (statusOf g x).isSome) : (statusOf g' x).isSome := by
  cases hf : findThought g x with
  | none => simp [statusOf, hf] at hs
  | some t =>
    obtain ⟨t', ht', _⟩ := h.find_some hf
    simp [statusOf, ht']

theorem Evolves.graphIds_eq {g g' : Graph} (h : Evolves g g') :
    graphIds g' = graphIds g := by
  induction h with
  | nil => rfl
  | cons hab hrest ih =>
    simp only [graphIds, List.map_cons] at ih ⊢
    rw [hab.id_eq, ih]

theorem status_stale_of_ne_active {t : Thought} (h : ¬ t.status = Status.active) :
    t.status = Status.stale := by
  cases hst : t.status
  · exact absurd hst h
  · rfl

theorem countActive_cons_active {a : Thought} {l : Graph}
    (ha : a.status = Status.active) : countActive (a :: l) = countActive l + 1 := by
  simp [countActive, List.filter_cons, ha]

theorem countActive_cons_stale {a : Thought} {l : Graph}
    (ha : a.status = Status.stale) : countActive (a :: l) = countActive l := by
  simp [countActive, List.filter_cons, ha]

theorem Evolves.countActive_le {g g' : Graph} (h : Evolves g g') :
    countActive g' ≤ countActive g := by
  induction h with
  | nil => exact le_refl _
  | cons hab hrest ih =>
    rename_i a b l l'
    by_cases hb : b.status = Status.active
    · have ha : a.status = Status.active := hab.active_back hb
      rw [countActive_cons_active ha, countActive_cons_active hb]
      exact Nat.succ_le_succ ih
    · rw [countActive_cons_stale (status_stale_of_ne_active hb)]
      by_cases ha : a.status = Status.active
      · rw [countActive_cons_active ha]
        exact Nat.le_succ_of_le ih
      · rw [countActive_cons_stale (status_stale_of_ne_active ha)]
        exact ih

theorem setStale_evolves (g : Graph) (tid : String) : Evolves g (setStale g tid) := by
  induction g with
  | nil => exact List.Forall₂.nil
  | cons a l ih =>
    refine List.Forall₂.cons ?_ ih
    show TEvol a
      (if (a.id == tid) = true then ({ a with status := Status.stale } : Thought) else a)
    by_cases hid : a.id = tid
    · rw [if_pos (by simp [hid])]
      by_cases hs : a.status = Status.active
      · exact TEvol.flip a hs
      · have hstale : a.status = Status.stale := status_stale_of_ne_active hs
        have heq : ({ a with status := Status.stale } : Thought) = a := by
          rw [← hstale]
        rw [heq]
        exact TEvol.same a
    · rw [if_neg (by simp [hid])]
      exact TEvol.same a

theorem setStale_countActive_lt {g : Graph} {tid : String}
    (h : statusOf g tid = some Status.active) :
    countActive (setStale g tid) < countActive g := by
  induction g with
  | nil => simp [statusOf, findThought] at h
  | cons a l ih =>
    rw [statusOf, findThought_cons] at h
    simp only [setStale, List.map_cons]
    by_cases hid : a.id = tid
    · rw [if_pos hid] at h
      have ha : a.status = Status.active := by simpa using h
      have hle : countActive (setStale l tid) ≤ countActive l :=
        (setStale_evolves l tid).countActive_le
      rw [if_pos (by simp [hid] : (a.id == tid) = true)]
      rw [countActive_cons_stale (by rfl), countActive_cons_active ha]
      exact Nat.lt_succ_of_le hle
    · rw [if_neg hid] at h
      have hlt := ih (by simpa [statusOf] using h)
      rw [show (if (a.id == tid) = true then ({ a with status := Status.stale } : Thought)
            else a) = a from if_neg (by simp [hid])]
      by_cases hs : a.status = Status.active
      · rw [countActive_cons_active hs, countActive_cons_active hs]
        exact Nat.succ_lt_succ hlt
      · rw [countActive_cons_stale (status_stale_of_ne_active hs),
          countActive_cons_stale (status_stale_of_ne_active hs)]
        exact hlt

/-! ### The cascade: graph evolution and the returned id list -/

theorem statusOf_eq_some_status {g : Graph} {x : String} {t : Thought}
    (hf : findThought g x = some t) : statusOf g x = some t.status := by
  simp [statusOf, hf]

theorem status_eq_of_statusOf {g : Graph} {x : String} {t : Thought} {s : Status}
    (hf : findThought g x = some t) (hs : statusOf g x = some s) : t.status = s := by
  rw [statusOf_eq_some_status hf] at hs
  exact Option.some.inj hs

theorem staleStep_nil (rec : Graph → String → Graph × List String) (tid : String)
    (g : Graph) : staleStep rec tid [] g = (g, []) := rfl

theorem staleStep_cons_none {rec : Graph → String → Graph × List String}
    {tid id : String} {ids : List String} {g : Graph}
    (h : findThought g id = none) :
    staleStep rec tid (id :: ids) g = staleStep rec tid ids g := by
  simp only [staleStep, h]

theorem staleStep_cons_pos {rec : Graph → String → Graph × List String}
    {tid id : String} {ids : List String} {g : Graph} {t : Thought}
    (h : findThought g id = some t)
    (hc : tid ∈ t.dependencies ∧ t.status = Status.active) :
    staleStep rec tid (id :: ids) g =
      ((staleStep rec tid ids (rec g id).1).1,
        (rec g id).2 ++ (staleStep rec tid ids (rec g id).1).2) := by
  simp only [staleStep, h]
  rw [if_pos hc]

theorem staleStep_cons_neg {rec : Graph → String → Graph × List String}
    {tid id : String} {ids : List String} {g : Graph} {t : Thought}
    (h : findThought g id = some t)
    (hc : ¬ (tid ∈ t.dependencies ∧ t.status = Status.active)) :
    staleStep rec tid (id :: ids) g = staleStep rec tid ids g := by
  simp only [staleStep, h]
  rw [if_neg hc]

theorem markStaleFuel_zero (g : Graph) (tid : String) :
    markStaleFuel 0 g tid = (g, []) := rfl

theorem markStaleFuel_succ_none {fuel : Nat} {g : Graph} {tid : String}
    (h : findThought g tid = none) : markStaleFuel (fuel + 1) g tid = (g, []) := by
  simp only [markStaleFuel, h]

theorem markStaleFuel_succ_stale {fuel : Nat} {g : Graph} {tid : String} {t : Thought}
    (h : findThought g tid = some t) (hs : ¬ t.status = Status.active) :
    markStaleFuel (fuel + 1) g tid = (g, []) := by
  simp only [markStaleFuel, h]
  rw [if_neg hs]

theorem markStaleFuel_succ_active {fuel : Nat} {g : Graph} {tid : String} {t : Thought}
    (h : findThought g tid = some t) (hs : t.status = Status.active) :
    markStaleFuel (fuel + 1) g tid =
      ((staleStep (fun g' id => markStaleFuel fuel g' id) tid
          (graphIds (setStale g tid)) (setStale g tid)).1,
        tid :: (staleStep (fun g' id => markStaleFuel fuel g' id) tid
          (graphIds (setStale g tid)) (setStale g tid)).2) := by
  simp only [markStaleFuel, h]
  rw [if_pos hs]

theorem staleStep_evolves {rec : Graph → String → Graph × List String}
    (hrec : ∀ g id, Evolves g (rec g id).1) (tid : String) :
    ∀ (ids : List String) (g : Graph), Evolves g (staleStep rec tid ids g).1 := by
  intro ids
  induction ids with
  | nil => intro g; exact Evolves.refl' g
  | cons id ids ih =>
    intro g
    cases hfind : findThought g id with
    | none => rw [staleStep_cons_none hfind]; exact ih g
    | some t =>
      by_cases hcond : tid ∈ t.dependencies ∧ t.status = Status.active
      · rw [staleStep_cons_pos hfind hcond]
        exact (hrec g id).evolves_trans (ih (rec g id).1)
      · rw [staleStep_cons_neg hfind hcond]
        exact ih g

theorem markStaleFuel_evolves :
    ∀ (fuel : Nat) (g : Graph) (tid : String), Evolves g (markStaleFuel fuel g tid).1 := by
  intro fuel
  induction fuel with
  | zero => intro g tid; exact Evolves.refl' g
  | succ fuel ih =>
    intro g tid
    cases hfind : findThought g tid with
    | none => rw [markStaleFuel_succ_none hfind]; exact Evolves.refl' g
    | some t =>
      by_cases hact : t.status = Status.active
      · rw [markStaleFuel_succ_active hfind hact]
        exact (setStale_evolves g tid).evolves_trans
          (staleStep_evolves (fun g' id => ih g' id) tid (graphIds (setStale g tid))
            (setStale g tid))
      · rw [markStaleFuel_succ_stale hfind hact]
        exact Evolves.refl' g

/-- The returned list of a recursive call contains exactly the ids flipped
from active to stale by that call, without duplicates. -/
def OutSpec (g g' : Graph) (out : List String) : Prop :=
  (∀ x, x ∈ out ↔ statusOf g x = some Status.active ∧ statusOf g' x = some Status.stale) ∧
    out.Nodup

theorem outSpec_id {g : Graph} : OutSpec g g [] := by
  constructor
  · intro x
    simp only [List.not_mem_nil, false_iff, not_and]
    intro ha hs
    rw [ha] at hs
    cases hs
  · exact List.nodup_nil

theorem staleStep_out {rec : Graph → String → Graph × List String}
    (hrecEv : ∀ g id, Evolves g (rec g id).1)
    (hrec : ∀ g id, OutSpec g (rec g id).1 (rec g id).2) (tid : String) :
    ∀ (ids : List String) (g : Graph),
      OutSpec g (staleStep rec tid ids g).1 (staleStep rec tid ids g).2 := by
  intro ids
  induction ids with
  | nil => intro g; exact outSpec_id
  | cons id ids ih =>
    intro g
    cases hfind : findThought g id with
    | none => rw [staleStep_cons_none hfind]; exact ih g
    | some t =>
      by_cases hcond : tid ∈ t.dependencies ∧ t.status = Status.active
      · rw [staleStep_cons_pos hfind hcond]
        have hev1 : Evolves g (rec g id).1 := hrecEv g id
        have hev2 : Evolves (rec g id).1 (staleStep rec tid ids (rec g id).1).1 :=
          staleStep_evolves hrecEv tid ids (rec g id).1
        obtain ⟨hm1, hn1⟩ := hrec g id
        obtain ⟨hm2, hn2⟩ := ih (rec g id).1
        constructor
        · intro x
          simp only [List.mem_append]
          constructor
          · rintro (hx | hx)
            · obtain ⟨ha, hs⟩ := (hm1 x).mp hx
              exact ⟨ha, hev2.statusOf_stale hs⟩
            · obtain ⟨ha, hs⟩ := (hm2 x).mp hx
              exact ⟨hev1.statusOf_active_back ha, hs⟩
          · rintro ⟨ha, hs⟩
            cases hmid : statusOf (rec g id).1 x with
            | none =>
              have : (statusOf (rec g id).1 x).isSome :=
                hev1.statusOf_isSome (by rw [ha]; rfl)
              rw [hmid] at this
              cases this
            | some s =>
              cases s with
              | active => exact Or.inr ((hm2 x).mpr ⟨hmid, hs⟩)
              | stale => exact Or.inl ((hm1 x).mpr ⟨ha, hmid⟩)
        · refine List.Nodup.append hn1 hn2 ?_
          intro x hx1 hx2
          obtain ⟨_, hs1⟩ := (hm1 x).mp hx1
          obtain ⟨ha2, _⟩ := (hm2 x).mp hx2
          rw [hs1] at ha2
          cases ha2
      · rw [staleStep_cons_neg hfind hcond]
        exact ih g

theorem markStaleFuel_out :
    ∀ (fuel : Nat) (g : Graph) (tid : String),
      OutSpec g (markStaleFuel fuel g tid).1 (markStaleFuel fuel g tid).2 := by
  intro fuel
  induction fuel with
  | zero => intro g tid; exact outSpec_id
  | succ fuel ih =>
    intro g tid
    cases hfind : findThought g tid with
    | none => rw [markStaleFuel_succ_none hfind]; exact outSpec_id
    | some t =>
      by_cases hact : t.status = Status.active
      · rw [markStaleFuel_succ_active hfind hact]
        set g1 := setStale g tid with hg1
        set r := staleStep (fun g' id => markStaleFuel fuel g' id) tid (graphIds g1) g1
          with hr
        have hev0 : Evolves g g1 := setStale_evolves g tid
        have hev1 : Evolves g1 r.1 :=
          staleStep_evolves (fun g' id => markStaleFuel_evolves fuel g' id) tid
            (graphIds g1) g1
        obtain ⟨hm, hn⟩ :=
          staleStep_out (fun g' id => markStaleFuel_evolves fuel g' id)
            (fun g' id => ih g' id) tid (graphIds g1) g1
        have hstid : statusOf g1 tid = some Status.stale := statusOf_setStale_self hfind
        constructor
        · intro x
          simp only [List.mem_cons]
          constructor
          · rintro (rfl | hx)
            · exact ⟨statusOf_eq_some_status hfind ▸ (by rw [hact]),
                hev1.statusOf_stale hstid⟩
            · obtain ⟨ha, hs⟩ := (hm x).mp hx
              by_cases hxt : x = tid
              · subst hxt
                rw [hstid] at ha
                cases ha
              · exact ⟨(statusOf_setStale_ne hxt) ▸ ha, hs⟩
          · rintro ⟨ha, hs⟩
            by_cases hxt : x = tid
            · exact Or.inl hxt
            · refine Or.inr ((hm x).mpr ⟨?_, hs⟩)
              rw [statusOf_setStale_ne hxt]
              exact ha
        · refine List.nodup_cons.mpr ⟨?_, hn⟩
          intro hmem
          obtain ⟨ha, _⟩ := (hm tid).mp hmem
          rw [hstid] at ha
          cases ha
      · rw [markStaleFuel_succ_stale hfind hact]
        exact outSpec_id

/-! ### Soundness of the cascade: every staled node is reverse-reachable -/

/-- Invariant of the cascade relative to the pre-invalidation graph `g0` and
the invalidated assumption `a`: the current graph evolved from `g0` and
every node staled so far is reverse-reachable from `a`. -/
def MSInv (g0 : Graph) (a : String) (g : Graph) : Prop :=
  Evolves g0 g ∧
    ∀ x, statusOf g0 x = some Status.active → statusOf g x = some Status.stale →
      Reaches g0 a x

theorem msInv_init (g0 : Graph) (a : String) : MSInv g0 a g0 := by
  refine ⟨Evolves.refl' g0, fun x ha hs => ?_⟩
  rw [ha] at hs
  cases hs

theorem staleStep_sound {g0 : Graph} {a : String}
    {rec : Graph → String → Graph × List String}
    (hrec : ∀ g id, MSInv g0 a g → Reaches g0 a id → MSInv g0 a (rec g id).1)
    (hrecEv : ∀ g id, Evolves g (rec g id).1) (tid : String) :
    ∀ (ids : List String) (g : Graph), MSInv g0 a g → Reaches g0 a tid →
      MSInv g0 a (staleStep rec tid ids g).1 := by
  intro ids
  induction ids with
  | nil => intro g hinv _; exact hinv
  | cons id ids ih =>
    intro g hinv htid
    cases hfind : findThought g id with
    | none => rw [staleStep_cons_none hfind]; exact ih g hinv htid
    | some t =>
      by_cases hcond : tid ∈ t.dependencies ∧ t.status = Status.active
      · rw [staleStep_cons_pos hfind hcond]
        have hid : Reaches g0 a id := by
          obtain ⟨t0, ht0, htt⟩ := hinv.1.find_back hfind
          obtain ⟨_, _, _, hdeps, _⟩ := htt.fields_eq
          exact Reaches.step tid id t0 htid ht0 (hdeps ▸ hcond.1)
            (htt.active_back hcond.2)
        exact ih (rec g id).1 (hrec g id hinv hid) htid
      · rw [staleStep_cons_neg hfind hcond]
        exact ih g hinv htid

theorem markStaleFuel_sound {g0 : Graph} {a : String} :
    ∀ (fuel : Nat) (g : Graph) (tid : String), MSInv g0 a g → Reaches g0 a tid →
      MSInv g0 a (markStaleFuel fuel g tid).1 := by
  intro fuel
  induction fuel with
  | zero => intro g tid hinv _; exact hinv
  | succ fuel ih =>
    intro g tid hinv htid
    cases hfind : findThought g tid with
    | none => rw [markStaleFuel_succ_none hfind]; exact hinv
    | some t =>
      by_cases hact : t.status = Status.active
      · rw [markStaleFuel_succ_active hfind hact]
        have hinv1 : MSInv g0 a (setStale g tid) := by
          refine ⟨hinv.1.evolves_trans (setStale_evolves g tid), fun x ha0 hs => ?_⟩
          by_cases hxt : x = tid
          · exact hxt ▸ htid
          · exact hinv.2 x ha0 (by rwa [statusOf_setStale_ne hxt] at hs)
        exact staleStep_sound (fun g' id => ih g' id)
          (fun g' id => markStaleFuel_evolves fuel g' id) tid
          (graphIds (setStale g tid)) (setStale g tid) hinv1 htid
      · rw [markStaleFuel_succ_stale hfind hact]
        exact hinv

/-! ### Completeness of the cascade: the final graph is closed -/

/-- Every thought of `g'` listing `x` among its dependencies is stale. -/
def ClosedAt (g' : Graph) (x : String) : Prop :=
  ∀ id t', findThought g' id = some t' → x ∈ t'.dependencies →
    t'.status = Status.stale

theorem closedAt_mono {g g' : Graph} {x : String} (hev : Evolves g g')
    (h : ClosedAt g x) : ClosedAt g' x := by
  intro id t' hf hdep
  obtain ⟨t0, ht0, htt⟩ := hev.find_back hf
  obtain ⟨_, _, _, hdeps, _⟩ := htt.fields_eq
  exact htt.stale_mono (h id t0 ht0 (hdeps ▸ hdep))

theorem staleStep_closed (fuel : Nat) {rec : Graph → String → Graph × List String}
    (hrecEv : ∀ g id, Evolves g (rec g id).1)
    (hrec : ∀ g id, countActive g < fuel → statusOf g id = some Status.active →
      statusOf (rec g id).1 id = some Status.stale ∧
        ∀ x, statusOf g x = some Status.active →
          statusOf (rec g id).1 x = some Status.stale → ClosedAt (rec g id).1 x)
    (tid : String) :
    ∀ (ids : List String) (g : Graph), countActive g < fuel →
      (∀ id ∈ ids, ∀ t', findThought (staleStep rec tid ids g).1 id = some t' →
        tid ∈ t'.dependencies → t'.status = Status.stale) ∧
      (∀ x, statusOf g x = some Status.active →
        statusOf (staleStep rec tid ids g).1 x = some Status.stale →
        ClosedAt (staleStep rec tid ids g).1 x) := by
  intro ids
  induction ids with
  | nil =>
    intro g hca
    rw [staleStep_nil]
    refine ⟨fun id h => absurd h (List.not_mem_nil id), fun x ha hs => ?_⟩
    rw [ha] at hs
    cases hs
  | cons id ids ih =>
    intro g hca
    cases hfind : findThought g id with
    | none =>
      rw [staleStep_cons_none hfind]
      obtain ⟨h1, h2⟩ := ih g hca
      refine ⟨fun id' hmem t' hf hdep => ?_, h2⟩
      rcases List.mem_cons.mp hmem with rfl | hmem'
      · have hev : Evolves g (staleStep rec tid ids g).1 := staleStep_evolves hrecEv tid ids g
        rw [hev.find_none hfind] at hf
        cases hf
      · exact h1 id' hmem' t' hf hdep
    | some t =>
      by_cases hcond : tid ∈ t.dependencies ∧ t.status = Status.active
      · rw [staleStep_cons_pos hfind hcond]
        have hidact : statusOf g id = some Status.active := by
          rw [statusOf_eq_some_status hfind, hcond.2]
        have hev1 : Evolves g (rec g id).1 := hrecEv g id
        have hca1 : countActive (rec g id).1 < fuel :=
          lt_of_le_of_lt hev1.countActive_le hca
        obtain ⟨hstale, hclose⟩ := hrec g id hca hidact
        obtain ⟨h1, h2⟩ := ih (rec g id).1 hca1
        have hev2 : Evolves (rec g id).1 (staleStep rec tid ids (rec g id).1).1 :=
          staleStep_evolves hrecEv tid ids (rec g id).1
        refine ⟨fun id' hmem t' hf hdep => ?_, fun x ha hs => ?_⟩
        · rcases List.mem_cons.mp hmem with rfl | hmem'
          · exact status_eq_of_statusOf hf (hev2.statusOf_stale hstale)
          · exact h1 id' hmem' t' hf hdep
        · cases hmid : statusOf (rec g id).1 x with
          | none =>
            have : (statusOf (rec g id).1 x).isSome :=
              hev1.statusOf_isSome (by rw [ha]; rfl)
            rw [hmid] at this
            cases this
          | some s =>
            cases s with
            | active => exact h2 x hmid hs
            | stale => exact closedAt_mono hev2 (hclose x ha hmid)
      · rw [staleStep_cons_neg hfind hcond]
        obtain ⟨h1, h2⟩ := ih g hca
        refine ⟨fun id' hmem t' hf hdep => ?_, h2⟩
        rcases List.mem_cons.mp hmem with rfl | hmem'
        · have hev : Evolves g (staleStep rec tid ids g).1 := staleStep_evolves hrecEv tid ids g
          obtain ⟨t0, ht0, htt⟩ := hev.find_back hf
          rw [hfind] at ht0
          cases ht0
          obtain ⟨_, _, _, hdeps, _⟩ := htt.fields_eq
          rcases Decidable.not_and_iff_or_not.mp hcond with hnd | hns
          · exact absurd (hdeps ▸ hdep) hnd
          · exact htt.stale_mono (status_stale_of_ne_active hns)
        · exact h1 id' hmem' t' hf hdep

theorem markStaleFuel_closed :
    ∀ (fuel : Nat) (g : Graph) (tid : String), countActive g < fuel →
      statusOf g tid = some Status.active →
      statusOf (markStaleFuel fuel g tid).1 tid = some Status.stale ∧
        ∀ x, statusOf g x = some Status.active →
          statusOf (markStaleFuel fuel g tid).1 x = some Status.stale →
          ClosedAt (markStaleFuel fuel g tid).1 x := by
  intro fuel
  induction fuel with
  | zero => intro g tid hca; exact absurd hca (Nat.not_lt_zero _)
  | succ fuel ih =>
    intro g tid hca hact'
    cases hfind : findThought g tid with
    | none => simp [statusOf, hfind] at hact'
    | some t =>
      have hact : t.status = Status.active := status_eq_of_statusOf hfind hact'
      rw [markStaleFuel_succ_active hfind hact]
      set g1 := setStale g tid with hg1
      have hca1 : countActive g1 < fuel := by
        have hlt : countActive g1 < countActive g := setStale_countActive_lt hact'
        omega
      have hstid : statusOf g1 tid = some Status.stale := statusOf_setStale_self hfind
      have hloop := staleStep_closed fuel
        (fun g' id => markStaleFuel_evolves fuel g' id)
        (fun g' id hca' hact'' => ih g' id hca' hact'') tid (graphIds g1) g1 hca1
      obtain ⟨h1, h2⟩ := hloop
      set r := staleStep (fun g' id => markStaleFuel fuel g' id) tid (graphIds g1) g1
        with hrdef
      have hev1 : Evolves g1 r.1 :=
        staleStep_evolves (fun g' id => markStaleFuel_evolves fuel g' id) tid
          (graphIds g1) g1
      refine ⟨hev1.statusOf_stale hstid, fun x ha hs => ?_⟩
      by_cases hxt : x = tid
      · subst hxt
        intro id' t' hf hdep
        have hid' : id' ∈ graphIds g1 := by
          have hmem : id' ∈ graphIds r.1 := mem_graphIds_of_findThought hf
          rwa [hev1.graphIds_eq] at hmem
        exact h1 id' hid' t' hf hdep
      · have ha1 : statusOf g1 x = some Status.active := by
          rwa [statusOf_setStale_ne hxt]
        exact h2 x ha1 hs

/-! ### The full specification of `markStale` -/

theorem reaches_active {g : Graph} {a x : String} (h : Reaches g a x)
    (ha : statusOf g a = some Status.active) : statusOf g x = some Status.active := by
  induction h with
  | refl => exact ha
  | step y tid t hy hfy hdep hacty ih => rw [statusOf_eq_some_status hfy, hacty]

theorem statusOf_none_iff {g : Graph} {x : String} :
    statusOf g x = none ↔ findThought g x = none := by
  simp [statusOf]

theorem markStale_spec {g : Graph} {a : String} {ta : Thought}
    (hf : findThought g a = some ta) (hact : ta.status = Status.active) :
    Evolves g (markStale g a).1 ∧
      (∀ x, statusOf (markStale g a).1 x = some Status.stale ↔
        statusOf g x = some Status.stale ∨ Reaches g a x) ∧
      (∀ x, x ∈ (markStale g a).2 ↔ Reaches g a x) ∧
      (markStale g a).2.Nodup ∧
      ∃ rest, (markStale g a).2 = a :: rest := by
  have hact' : statusOf g a = some Status.active := by
    rw [statusOf_eq_some_status hf, hact]
  have hfuel : countActive g < countActive g + 1 := Nat.lt_succ_self _
  have hev : Evolves g (markStale g a).1 := markStaleFuel_evolves _ g a
  have hclosed := markStaleFuel_closed (countActive g + 1) g a hfuel hact'
  have hsound := markStaleFuel_sound (countActive g + 1) g a (msInv_init g a)
    Reaches.refl
  have hout := markStaleFuel_out (countActive g + 1) g a
  have hcomplete : ∀ x, Reaches g a x →
      statusOf (markStale g a).1 x = some Status.stale := by
    intro x hx
    induction hx with
    | refl => exact hclosed.1
    | step y tid t hy hfy hdep hacty ih =>
      have hyact : statusOf g y = some Status.active := reaches_active hy hact'
      have hcl : ClosedAt (markStale g a).1 y := hclosed.2 y hyact ih
      obtain ⟨t', ht', htt⟩ := hev.find_some hfy
      obtain ⟨_, _, _, hdeps, _⟩ := htt.fields_eq
      rw [statusOf_eq_some_status ht', hcl tid t' ht' (hdeps ▸ hdep)]
  refine ⟨hev, fun x => ⟨fun hs => ?_, fun hs => ?_⟩, fun x => ⟨fun hx => ?_, fun hx => ?_⟩,
    hout.2, ?_⟩
  · cases hgx : statusOf g x with
    | none =>
      have hfx := hev.find_none (statusOf_none_iff.mp hgx)
      simp [statusOf, hfx] at hs
    | some s =>
      cases s with
      | stale => exact Or.inl rfl
      | active => exact Or.inr (hsound.2 x hgx hs)
  · rcases hs with hs | hs
    · exact hev.statusOf_stale hs
    · exact hcomplete x hs
  · exact hsound.2 x ((hout.1 x).mp hx).1 ((hout.1 x).mp hx).2
  · exact (hout.1 x).mpr ⟨reaches_active hx hact', hcomplete x hx⟩
  · refine ⟨(staleStep (fun g' id => markStaleFuel (countActive g) g' id) a
      (graphIds (setStale g a)) (setStale g a)).2, ?_⟩
    show (markStaleFuel (countActive g + 1) g a).2 = _
    rw [markStaleFuel_succ_active hf hact]

/-! ### Unfolding lemmas for the handlers -/

theorem invalidate_ok {g : Graph} {tid reason cid : String} {ts : ℤ} {t : Thought}
    (hf : findThought g tid = some t)
    (hty : t.thought_type = ThoughtType.assumption) :
    handleInvalidateAssumption g tid reason cid ts =
      .ok (mapSet (markStale g tid).1 (critiqueOf t tid reason cid ts),
        (markStale g tid).2, cid) := by
  simp only [handleInvalidateAssumption, hf]
  rw [if_pos hty]

theorem statusOf_append_left {g l : Graph} {x : String} {t : Thought}
    (h : findThought g x = some t) : statusOf (g ++ l) x = statusOf g x := by
  rw [statusOf, findThought_append_left h, statusOf, h]

/-- A thought used in concrete witness graphs. -/
def mkT (i : String) (ty : ThoughtType) (deps : List String) (st : Status) : Thought :=
  { id := i, thought := i, thought_type := ty, dependencies := deps,
    confidence := none, action_request := none, timestamp := 0, status := st }

/-- Witness graph: objective ← hypothesis ← assumption ← sub_problem. -/
def chainG : Graph :=
  [mkT "o" .objective [] .active, mkT "h" .hypothesis ["o"] .active,
   mkT "a" .assumption ["h"] .active, mkT "s" .sub_problem ["a"] .active]

/-- Counterexample graph for C1: a single already-stale assumption. -/
def staleAG : Graph := [mkT "a" .assumption [] .stale]

/-- Counterexample graph for C4: an active assumption and an active critique
logged via `log_thought` that depends on it. -/
def critDepG : Graph :=
  [mkT "a" .assumption [] .active, mkT "c" .critique ["a"] .active]

/-! ### Claims C1, C2 and C4 -/

/-- C2: for every graph and every active thought `a` of type assumption,
`invalidate(a, reason)` succeeds and sets to stale exactly `a` and every
thought reverse-reachable from `a` through previously-active nodes — no
other pre-existing thought changes staleness, the appended critique is
active — and the returned list of newly-stale ids lists exactly the
reverse-reachable ids, each exactly once (`Nodup`), with `a` first. -/
theorem C2_cascade_exact {g : Graph} {a reason cid : String} {ts : ℤ} {ta : Thought}
    (hf : findThought g a = some ta) (hact : ta.status = Status.active)
    (hty : ta.thought_type = ThoughtType.assumption) (hcid : cid ∉ graphIds g) :
    ∃ g' out, handleInvalidateAssumption g a reason cid ts = .ok (g', out, cid) ∧
      (∀ x, x ∈ graphIds g → (statusOf g' x = some Status.stale ↔
        statusOf g x = some Status.stale ∨ Reaches g a x)) ∧
      (∀ x, x ∈ out ↔ Reaches g a x) ∧
      out.Nodup ∧ (∃ rest, out = a :: rest) ∧
      statusOf g' cid = some Status.active := by
  obtain ⟨hev, hiff, hmem, hnd, hhead⟩ := markStale_spec hf hact
  have hcidgs : cid ∉ graphIds (markStale g a).1 := by
    rwa [hev.graphIds_eq]
  have hset : mapSet (markStale g a).1 (critiqueOf ta a reason cid ts) =
      (markStale g a).1 ++ [critiqueOf ta a reason cid ts] :=
    mapSet_fresh hcidgs
  refine ⟨(markStale g a).1 ++ [critiqueOf ta a reason cid ts], (markStale g a).2,
    ?_, ?_, hmem, hnd, hhead, ?_⟩
  · rw [invalidate_ok hf hty, hset]
  · intro x hx
    obtain ⟨t0, ht0⟩ := Option.isSome_iff_exists.mp
      (findThought_isSome_of_mem_graphIds hx)
    obtain ⟨t', ht', _⟩ := hev.find_some ht0
    rw [statusOf_append_left ht']
    exact hiff x
  · have hnone : findThought (markStale g a).1 cid = none :=
      findThought_none_iff.mpr hcidgs
    simp only [statusOf, findThought_append_right hnone, findThought_cons]
    simp [critiqueOf]

/-- C2 witness: invalidating the active assumption "a" of the concrete
chain graph, with all hypotheses discharged concretely. -/
theorem C2_witness :
    ∃ g' out, handleInvalidateAssumption chainG "a" "r" "c" 5 = .ok (g', out, "c") ∧
      (∀ x, x ∈ graphIds chainG → (statusOf g' x = some Status.stale ↔
        statusOf chainG x = some Status.stale ∨ Reaches chainG "a" x)) ∧
      (∀ x, x ∈ out ↔ Reaches chainG "a" x) ∧
      out.Nodup ∧ (∃ rest, out = "a" :: rest) ∧
      statusOf g' "c" = some Status.active :=
  C2_cascade_exact rfl rfl rfl (by decide)

/-- C1 (amended): invalidating an already-stale assumption stales no node
and returns an empty list of newly-stale ids, but it still unconditionally
appends one new active critique thought — it is not a complete no-op. -/
theorem C1_stale_invalidate_amended {g : Graph} {a reason cid : String} {ts : ℤ}
    {ta : Thought} (hf : findThought g a = some ta)
    (hstale : ta.status = Status.stale)
    (hty : ta.thought_type = ThoughtType.assumption) (hcid : cid ∉ graphIds g) :
    handleInvalidateAssumption g a reason cid ts =
      .ok (g ++ [critiqueOf ta a reason cid ts], [], cid) := by
  have hms : markStale g a = (g, []) := by
    show markStaleFuel (countActive g + 1) g a = (g, [])
    exact markStaleFuel_succ_stale hf (by rw [hstale]; intro h; cases h)
  rw [invalidate_ok hf hty, hms]
  rw [mapSet_fresh (show (critiqueOf ta a reason cid ts).id ∉ graphIds g from hcid)]

/-- C1 witness: the amended behaviour at the concrete one-node graph. -/
theorem C1_witness :
    handleInvalidateAssumption staleAG "a" "why" "c" 5 =
      .ok (staleAG ++ [critiqueOf (mkT "a" .assumption [] .stale) "a" "why" "c" 5],
        [], "c") :=
  C1_stale_invalidate_amended rfl rfl rfl (by decide)

/-- C1 counterexample: invalidating the already-stale assumption "a" returns
an empty newly-stale list yet grows the graph from 1 to 2 thoughts by
appending a fresh critique — refuting "appends no new critique thought". -/
theorem C1_counterexample :
    (handleInvalidateAssumption staleAG "a" "why" "c" 5).toOption.map
        (fun r => (r.1.length, r.2.1,
          (r.1.getLast? ).map (fun t => t.thought_type))) =
      some (2, [], some ThoughtType.critique) ∧ staleAG.length = 1 := ⟨rfl, rfl⟩

/-- C4 (amended): no invalidation ever stales an active thought all of whose
dependencies are already stale — in particular the critiques appended by
`invalidate`, whose single dependency is the just-staled assumption, are
never staled by later cascades.  (Critiques logged via `log_thought` with an
active dependency do get staled: `markStale` never inspects the type.) -/
theorem C4_stale_deps_survive_amended {g : Graph} {a c reason cid : String}
    {ts : ℤ} {ta tc : Thought}
    (hfa : findThought g a = some ta) (hact : ta.status = Status.active)
    (hty : ta.thought_type = ThoughtType.assumption)
    (hfc : findThought g c = some tc) (hcact : tc.status = Status.active)
    (hdeps : ∀ d ∈ tc.dependencies, statusOf g d = some Status.stale)
    (hca : c ≠ a) (hcid : cid ∉ graphIds g) :
    ∃ g' out, handleInvalidateAssumption g a reason cid ts = .ok (g', out, cid) ∧
      statusOf g' c = some Status.active := by
  have hact' : statusOf g a = some Status.active := by
    rw [statusOf_eq_some_status hfa, hact]
  have hnr : ¬ Reaches g a c := by
    intro h
    cases h with
    | refl => exact hca rfl
    | step x tid t hx hfx hdep hactx =>
      rw [hfc] at hfx
      cases hfx
      have hxa := reaches_active hx hact'
      rw [hdeps x hdep] at hxa
      cases hxa
  obtain ⟨hev, hiff, _, _, _⟩ := markStale_spec hfa hact
  have hgsc : statusOf (markStale g a).1 c = some Status.active := by
    obtain ⟨t', ht', htt⟩ := hev.find_some hfc
    have hns : ¬ statusOf (markStale g a).1 c = some Status.stale := by
      intro hs
      rcases (hiff c).mp hs with hs0 | hs0
      · rw [statusOf_eq_some_status hfc, hcact] at hs0
        cases hs0
      · exact hnr hs0
    rw [statusOf_eq_some_status ht'] at hns ⊢
    cases hst : t'.status with
    | active => rfl
    | stale => exact absurd (by rw [hst]) hns
  have hcidgs : cid ∉ graphIds (markStale g a).1 := by rwa [hev.graphIds_eq]
  refine ⟨(markStale g a).1 ++ [critiqueOf ta a reason cid ts], (markStale g a).2,
    ?_, ?_⟩
  · rw [invalidate_ok hfa hty, mapSet_fresh hcidgs]
  · obtain ⟨t', ht', _⟩ := hev.find_some hfc
    rw [statusOf_append_left ht']
    exact hgsc

/-- C4 witness: the amended theorem at a concrete graph where the critique
"k0" has its single dependency "d" already stale. -/
theorem C4_witness :
    ∃ g' out, handleInvalidateAssumption
        [mkT "d" .assumption [] .stale, mkT "k0" .critique ["d"] .active,
         mkT "a" .assumption [] .active]
        "a" "why" "c" 5 = .ok (g', out, "c") ∧
      statusOf g' "k0" = some Status.active :=
  C4_stale_deps_survive_amended rfl rfl rfl rfl rfl
    (by intro d hd; cases hd with
        | head => rfl
        | tail _ h => cases h)
    (by decide) (by decide)

/-- C4 counterexample: on a graph holding the active assumption "a" and an
active critique "c" logged with dependency ["a"], `invalidate("a")`
transitions the critique from active to stale — refuting "critiques are
never staled by the cascade". -/
theorem C4_counterexample :
    (handleInvalidateAssumption critDepG "a" "why" "k" 9).toOption.map
        (fun r => statusOf r.1 "c") = some (some Status.stale) ∧
      statusOf critDepG "c" = some Status.active ∧
      (findThought critDepG "c").map (fun t => t.thought_type) =
        some ThoughtType.critique := ⟨rfl, rfl, rfl⟩

/-! ### Success-shape lemmas for the handlers, and per-step evolution -/

theorem handleLogThought_ok {g g' : Graph} {input : LogInput} {tmp fid : String}
    {ts : ℤ} (h : handleLogThought g input tmp fid ts = .ok g') :
    validateDependencies g input.dependencies tmp = .ok () ∧
      g' = mapSet g
        { id := fid, thought := input.thought, thought_type := input.thought_type,
          dependencies := input.dependencies, confidence := input.confidence,
          action_request := input.action_request, timestamp := ts,
          status := .active } := by
  cases hv : validateDependencies g input.dependencies tmp with
  | error e =>
    simp only [handleLogThought, hv] at h
    cases h
  | ok u =>
    cases u
    simp only [handleLogThought, hv] at h
    exact ⟨rfl, (Except.ok.inj h).symm⟩

theorem handleInvalidate_ok_inv {g : Graph} {tid reason cid : String} {ts : ℤ}
    {r : Graph × List String × String}
    (h : handleInvalidateAssumption g tid reason cid ts = .ok r) :
    ∃ t, findThought g tid = some t ∧ t.thought_type = ThoughtType.assumption ∧
      r = (mapSet (markStale g tid).1 (critiqueOf t tid reason cid ts),
        (markStale g tid).2, cid) := by
  cases hf : findThought g tid with
  | none =>
    simp only [handleInvalidateAssumption, hf] at h
    cases h
  | some t =>
    by_cases hty : t.thought_type = ThoughtType.assumption
    · refine ⟨t, rfl, hty, ?_⟩
      simp only [handleInvalidateAssumption, hf, if_pos hty] at h
      exact (Except.ok.inj h).symm
    · simp only [handleInvalidateAssumption, hf, if_neg hty] at h
      cases h

theorem evolves_mem_back {g g' : Graph} (h : Evolves g g') {t' : Thought}
    (hm : t' ∈ g') : ∃ t0 ∈ g, TEvol t0 t' := by
  induction h with
  | nil => cases hm
  | cons hab hrest ih =>
    rcases List.mem_cons.mp hm with rfl | hm'
    · exact ⟨_, List.mem_cons_self _ _, hab⟩
    · obtain ⟨t0, ht0, h0⟩ := ih hm'
      exact ⟨t0, List.mem_cons_of_mem _ ht0, h0⟩

theorem step_tevol {g g' : Graph} (h : Step g g') {x : String} {t : Thought}
    (hf : findThought g x = some t) :
    ∃ t', findThought g' x = some t' ∧ TEvol t t' := by
  cases h with
  | log input tmp fid ts hfid hok =>
    obtain ⟨_, rfl⟩ := handleLogThought_ok hok
    rw [mapSet_fresh hfid]
    exact ⟨t, findThought_append_left hf, TEvol.same t⟩
  | invalidate tid reason cid ts out hcid hok =>
    obtain ⟨u, hfu, hty, heq⟩ := handleInvalidate_ok_inv hok
    have hev : Evolves g (markStale g tid).1 := markStaleFuel_evolves _ g tid
    have hg' : g' = (markStale g tid).1 ++ [critiqueOf u tid reason cid ts] := by
      have h1 : g' = mapSet (markStale g tid).1 (critiqueOf u tid reason cid ts) :=
        congrArg (fun p => p.1) heq
      rw [h1, mapSet_fresh (show (critiqueOf u tid reason cid ts).id ∉
        graphIds (markStale g tid).1 from hev.graphIds_eq ▸ hcid)]
    obtain ⟨t', ht', htt⟩ := hev.find_some hf
    exact ⟨t', hg' ▸ findThought_append_left ht', htt⟩

theorem steps_tevol {g g' : Graph} (h : Steps g g') {x : String} {t : Thought}
    (hf : findThought g x = some t) :
    ∃ t', findThought g' x = some t' ∧ TEvol t t' := by
  induction h with
  | refl => exact ⟨t, hf, TEvol.same t⟩
  | tail hstep htail ih =>
    obtain ⟨u, hu, htu⟩ := ih
    obtain ⟨v, hv, huv⟩ := step_tevol htail hu
    exact ⟨v, hv, htu.tevol_trans huv⟩

theorem step_new_active {g g' : Graph} (h : Step g g') :
    ∀ t' ∈ g', findThought g t'.id = none → t'.status = Status.active := by
  cases h with
  | log input tmp fid ts hfid hok =>
    obtain ⟨_, rfl⟩ := handleLogThought_ok hok
    rw [mapSet_fresh hfid]
    intro t' ht' hnone
    rcases List.mem_append.mp ht' with hmem | hmem
    · have : t'.id ∈ graphIds g := List.mem_map.mpr ⟨t', hmem, rfl⟩
      exact absurd hnone (by
        have := findThought_isSome_of_mem_graphIds this
        intro he
        rw [he] at this
        cases this)
    · rcases List.mem_singleton.mp hmem with rfl
      rfl
  | invalidate tid reason cid ts out hcid hok =>
    obtain ⟨u, hfu, hty, heq⟩ := handleInvalidate_ok_inv hok
    have hev : Evolves g (markStale g tid).1 := markStaleFuel_evolves _ g tid
    have hg' : g' = (markStale g tid).1 ++ [critiqueOf u tid reason cid ts] := by
      have h1 : g' = mapSet (markStale g tid).1 (critiqueOf u tid reason cid ts) :=
        congrArg (fun p => p.1) heq
      rw [h1, mapSet_fresh (show (critiqueOf u tid reason cid ts).id ∉
        graphIds (markStale g tid).1 from hev.graphIds_eq ▸ hcid)]
    subst hg'
    intro t' ht' hnone
    rcases List.mem_append.mp ht' with hmem | hmem
    · obtain ⟨t0, ht0, h0⟩ := evolves_mem_back hev hmem
      have : t'.id ∈ graphIds g := by
        rw [h0.id_eq]
        exact List.mem_map.mpr ⟨t0, ht0, rfl⟩
      exact absurd hnone (by
        have := findThought_isSome_of_mem_graphIds this
        intro he
        rw [he] at this
        cases this)
    · rcases List.mem_singleton.mp hmem with rfl
      rfl

/-- C6: over any sequence of successful operations, a stored thought keeps
its content, type, dependencies, confidence and timestamp; once its status
is stale it stays stale (it never reverts to active), and the only possible
status change is active to stale; moreover any thought newly present after
one operation is created with status active. -/
theorem C6_status_monotone :
    (∀ g g', Steps g g' → ∀ x t, findThought g x = some t →
      ∃ t', findThought g' x = some t' ∧
        t'.thought = t.thought ∧ t'.thought_type = t.thought_type ∧
        t'.dependencies = t.dependencies ∧ t'.confidence = t.confidence ∧
        t'.timestamp = t.timestamp ∧
        (t.status = Status.stale → t'.status = Status.stale) ∧
        (t'.status = Status.active → t.status = Status.active)) ∧
    (∀ g g', Step g g' → ∀ t' ∈ g', findThought g t'.id = none →
      t'.status = Status.active) := by
  constructor
  · intro g g' h x t hf
    obtain ⟨t', ht', htt⟩ := steps_tevol h hf
    obtain ⟨_, h1, h2, h3, h4, _, h5⟩ := htt.fields_eq
    exact ⟨t', ht', h1, h2, h3, h4, h5, htt.stale_mono, htt.active_back⟩
  · exact fun g g' h => step_new_active h

/-! ### Claim C3: acyclicity and closedness of reachable graphs -/

theorem find_eq_of_mem_nodup {g : Graph} (hnd : (graphIds g).Nodup) {t : Thought}
    (hm : t ∈ g) : findThought g t.id = some t := by
  induction g with
  | nil => cases hm
  | cons a l ih =>
    rw [findThought_cons]
    rcases List.mem_cons.mp hm with rfl | hm'
    · rw [if_pos rfl]
    · have hnd' : (graphIds l).Nodup := by
        simpa [graphIds] using (List.nodup_cons.mp (by simpa [graphIds] using hnd)).2
      have hne : a.id ≠ t.id := by
        intro he
        have : a.id ∈ graphIds l := by
          rw [he]
          exact List.mem_map.mpr ⟨t, hm', rfl⟩
        exact (List.nodup_cons.mp (by simpa [graphIds] using hnd)).1 this
      rw [if_neg hne]
      exact ih hnd' hm'

theorem ordered_deps_sub {g : Graph} :
    ∀ (acc : List String), Ordered acc g →
      ∀ t ∈ g, ∀ d ∈ t.dependencies, d ∈ acc ++ graphIds g := by
  induction g with
  | nil => intro acc _ t ht; cases ht
  | cons a l ih =>
    intro acc hord t ht d hd
    rcases List.mem_cons.mp ht with rfl | ht'
    · exact List.mem_append.mpr (Or.inl (hord.1 d hd))
    · have := ih (acc ++ [a.id]) hord.2 t ht' d hd
      rcases List.mem_append.mp this with h1 | h1
      · rcases List.mem_append.mp h1 with h2 | h2
        · exact List.mem_append.mpr (Or.inl h2)
        · refine List.mem_append.mpr (Or.inr ?_)
          simp only [graphIds, List.map_cons, List.mem_cons]
          exact Or.inl (List.mem_singleton.mp h2)
      · refine List.mem_append.mpr (Or.inr ?_)
        simp only [graphIds, List.map_cons, List.mem_cons]
        exact Or.inr (by simpa [graphIds] using h1)

theorem ordered_append {g : Graph} {t : Thought} :
    ∀ (acc : List String), Ordered acc g →
      (∀ d ∈ t.dependencies, d ∈ acc ++ graphIds g) → Ordered acc (g ++ [t]) := by
  induction g with
  | nil =>
    intro acc _ hdeps
    exact ⟨fun d hd => by simpa [graphIds] using hdeps d hd, trivial⟩
  | cons a l ih =>
    intro acc hord hdeps
    refine ⟨hord.1, ih (acc ++ [a.id]) hord.2 fun d hd => ?_⟩
    have := hdeps d hd
    rcases List.mem_append.mp this with h1 | h1
    · exact List.mem_append.mpr (Or.inl (List.mem_append.mpr (Or.inl h1)))
    · simp only [graphIds, List.map_cons, List.mem_cons] at h1
      rcases h1 with h2 | h2
      · exact List.mem_append.mpr (Or.inl (List.mem_append.mpr (Or.inr
          (List.mem_singleton.mpr h2))))
      · exact List.mem_append.mpr (Or.inr (by simpa [graphIds] using h2))

theorem ordered_evolves {g g' : Graph} (h : Evolves g g') :
    ∀ (acc : List String), Ordered acc g → Ordered acc g' := by
  induction h with
  | nil => intro acc _; trivial
  | cons hab hrest ih =>
    intro acc hord
    obtain ⟨hid, _, _, hdeps, _⟩ := hab.fields_eq
    exact ⟨fun d hd => hord.1 d (hdeps ▸ hd), hid ▸ ih (acc ++ [_]) hord.2⟩

/-- The structural invariant every reachable graph satisfies. -/
def GraphInv (g : Graph) : Prop := Ordered [] g ∧ (graphIds g).Nodup

theorem validate_ok_deps {g : Graph} {deps : List String} {tmp : String}
    (h : validateDependencies g deps tmp = .ok ()) :
    ∀ d ∈ deps, d ∈ graphIds g := by
  intro d hd
  cases hfind : deps.find? (fun d => (findThought g d).isNone) with
  | some d0 =>
    simp only [validateDependencies, hfind] at h
    cases h
  | none =>
    have := List.find?_eq_none.mp hfind d hd
    cases hfd : findThought g d with
    | none => exact absurd (by rw [hfd]; rfl) this
    | some t => exact mem_graphIds_of_findThought hfd

theorem graphIds_append (g l : Graph) : graphIds (g ++ l) = graphIds g ++ graphIds l := by
  simp [graphIds]

theorem step_graphInv {g g' : Graph} (h : Step g g') (hinv : GraphInv g) :
    GraphInv g' := by
  cases h with
  | log input tmp fid ts hfid hok =>
    obtain ⟨hv, rfl⟩ := handleLogThought_ok hok
    rw [mapSet_fresh hfid]
    constructor
    · exact ordered_append [] hinv.1 fun d hd => by
        simpa using validate_ok_deps hv d hd
    · rw [graphIds_append]
      simp only [graphIds, List.map_cons, List.map_nil]
      rw [List.nodup_append]
      exact ⟨hinv.2, List.nodup_singleton _, by
        intro x hx hx'
        rcases List.mem_singleton.mp hx' with rfl
        exact hfid hx⟩
  | invalidate tid reason cid ts out hcid hok =>
    obtain ⟨u, hfu, hty, heq⟩ := handleInvalidate_ok_inv hok
    have hev : Evolves g (markStale g tid).1 := markStaleFuel_evolves _ g tid
    have hg' : g' = (markStale g tid).1 ++ [critiqueOf u tid reason cid ts] := by
      have h1 : g' = mapSet (markStale g tid).1 (critiqueOf u tid reason cid ts) :=
        congrArg (fun p => p.1) heq
      rw [h1, mapSet_fresh (show (critiqueOf u tid reason cid ts).id ∉
        graphIds (markStale g tid).1 from hev.graphIds_eq ▸ hcid)]
    subst hg'
    constructor
    · refine ordered_append [] (ordered_evolves hev [] hinv.1) fun d hd => ?_
      rcases List.mem_singleton.mp hd with rfl
      rw [hev.graphIds_eq]
      simpa using mem_graphIds_of_findThought hfu
    · rw [graphIds_append, hev.graphIds_eq, List.nodup_append]
      refine ⟨hinv.2, List.nodup_singleton _, ?_⟩
      intro x hx hx'
      have hxc : x = cid := by simpa [graphIds] using hx'
      subst hxc
      exact hcid hx

theorem reachable_graphInv {g : Graph} (h : ReachableGraph g) : GraphInv g := by
  induction h with
  | refl => exact ⟨trivial, List.nodup_nil⟩
  | tail hsteps hstep ih => exact step_graphInv hstep ih

theorem acc_no_cycle {g : Graph} {x : String}
    (hacc : Acc (fun y x => DStep g x y) x) :
    ¬ Relation.TransGen (DStep g) x x := by
  induction hacc with
  | intro x hx ih =>
    intro hcyc
    obtain ⟨m, hxm, hmx⟩ := Relation.TransGen.head'_iff.mp hcyc
    exact ih m hxm (Relation.TransGen.tail' hmx hxm)

theorem acc_build {g : Graph} (hnd : (graphIds g).Nodup) :
    ∀ (rest : Graph) (acc : List String), Ordered acc rest →
      (∀ t ∈ rest, t ∈ g) →
      (∀ a ∈ acc, Acc (fun y x => DStep g x y) a) →
      ∀ x ∈ graphIds rest, Acc (fun y x => DStep g x y) x := by
  intro rest
  induction rest with
  | nil => intro acc _ _ _ x hx; simp [graphIds] at hx
  | cons t rest ih =>
    intro acc hord hsub hacc x hx
    have hacct : Acc (fun y x => DStep g x y) t.id := by
      constructor
      intro y hy
      obtain ⟨u, hu, hyu⟩ := hy
      have hut : u = t := by
        have hft : findThought g t.id = some t :=
          find_eq_of_mem_nodup hnd (hsub t (List.mem_cons_self t rest))
        rw [hft] at hu
        exact (Option.some.inj hu).symm
      subst hut
      exact hacc y (hord.1 y hyu)
    simp only [graphIds, List.map_cons, List.mem_cons] at hx
    rcases hx with rfl | hx'
    · exact hacct
    · refine ih (acc ++ [t.id]) hord.2
        (fun u hu => hsub u (List.mem_cons_of_mem t hu)) ?_ x
        (by simpa [graphIds] using hx')
      intro a ha
      rcases List.mem_append.mp ha with h1 | h1
      · exact hacc a h1
      · rcases List.mem_singleton.mp h1 with rfl
        exact hacct

theorem acyclic_of_graphInv {g : Graph} (hinv : GraphInv g) : Acyclic g := by
  intro x hcyc
  have hacc : Acc (fun y x => DStep g x y) x := by
    by_cases hx : x ∈ graphIds g
    · exact acc_build hinv.2 g [] hinv.1 (fun t ht => ht) (by simp) x hx
    · constructor
      intro y hy
      obtain ⟨u, hu, _⟩ := hy
      rw [findThought_none_iff.mpr hx] at hu
      cases hu
  exact acc_no_cycle hacc hcyc

/-- C3: for every sequence of successful operations (insertions and
invalidations, the latter appending a critique) starting from the empty
graph, every stored dependency id references a thought present in the
graph, and the dependency relation over all ids contains no cycle. -/
theorem C3_acyclic_closed {g : Graph} (h : ReachableGraph g) :
    (∀ t ∈ g, ∀ d ∈ t.dependencies, d ∈ graphIds g) ∧ Acyclic g := by
  have hinv := reachable_graphInv h
  refine ⟨fun t ht d hd => ?_, acyclic_of_graphInv hinv⟩
  simpa using ordered_deps_sub [] hinv.1 t ht d hd

/-- The one-thought graph reached by a single successful `log_thought`. -/
def logG : Graph := [mkT "a" .objective [] .active]

/-- C3 witness: the invariant at the concrete reachable graph with one
logged thought. -/
theorem C3_witness :
    (∀ t ∈ logG, ∀ d ∈ t.dependencies, d ∈ graphIds logG) ∧ Acyclic logG :=
  C3_acyclic_closed
    (Relation.ReflTransGen.single
      (Step.log emptyGraph logG
        { thought := "a", thought_type := .objective, dependencies := [],
          confidence := none, action_request := none } "tmp" "a" 0
        (by decide) rfl))

/-! ### Claim C5: the cycle-detecting DFS of `validateDependencies` -/

theorem dfsList_nil (rec : String → List String → List String → Option (List String))
    (V S : List String) : dfsList rec [] V S = some V := rfl

theorem dfsList_cons_none
    {rec : String → List String → List String → Option (List String)}
    {d : String} {ds V S : List String} (h : rec d V S = none) :
    dfsList rec (d :: ds) V S = none := by
  simp only [dfsList, h]

theorem dfsList_cons_some
    {rec : String → List String → List String → Option (List String)}
    {d : String} {ds V S V1 : List String} (h : rec d V S = some V1) :
    dfsList rec (d :: ds) V S = dfsList rec ds V1 S := by
  simp only [dfsList, h]

theorem dfsFuel_succ_stack {g : Graph} {cdeps : List String} {tmp : String}
    {fuel : Nat} {n : String} {V S : List String} (h : n ∈ S) :
    dfsFuel g cdeps tmp (fuel + 1) n V S = none := by
  simp only [dfsFuel, if_pos h]

theorem dfsFuel_succ_visited {g : Graph} {cdeps : List String} {tmp : String}
    {fuel : Nat} {n : String} {V S : List String} (hs : n ∉ S) (hv : n ∈ V) :
    dfsFuel g cdeps tmp (fuel + 1) n V S = some V := by
  simp only [dfsFuel, if_neg hs, if_pos hv]

theorem dfsFuel_succ_fresh {g : Graph} {cdeps : List String} {tmp : String}
    {fuel : Nat} {n : String} {V S : List String} (hs : n ∉ S) (hv : n ∉ V) :
    dfsFuel g cdeps tmp (fuel + 1) n V S =
      dfsList (fun d V0 S0 => dfsFuel g cdeps tmp fuel d V0 S0)
        (adjOf g cdeps tmp n) (n :: V) (n :: S) := by
  simp only [dfsFuel, if_neg hs, if_neg hv]

theorem dstep_mem_adj {g : Graph} {cdeps : List String} {tmp : String}
    (htmp : findThought g tmp = none) {n m : String} (h : DStep g n m) :
    m ∈ adjOf g cdeps tmp n := by
  obtain ⟨u, hu, hm⟩ := h
  have hne : n ≠ tmp := by
    rintro rfl
    rw [htmp] at hu
    cases hu
  rw [adjOf, if_neg (by simp [hne])]
  simp only [hu]
  exact hm

theorem clean_of_deps {g : Graph} {n : String}
    (h : ∀ m, DStep g n m → ¬ ReachesCycle g m) : ¬ ReachesCycle g n := by
  rintro ⟨y, hreach, hcyc⟩
  rcases Relation.ReflTransGen.cases_head hreach with rfl | ⟨c, hnc, hcy⟩
  · obtain ⟨m, hnm, hmn⟩ := Relation.TransGen.head'_iff.mp hcyc
    exact h m hnm ⟨_, hmn, hcyc⟩
  · exact h c hnc ⟨_, hcy, hcyc⟩

/-- Invariant of the DFS: every fully-explored node (visited and off the
recursion stack) reaches no dependency cycle. -/
def DFSInv (g : Graph) (V S : List String) : Prop :=
  ∀ x ∈ V, x ∉ S → ¬ ReachesCycle g x

theorem dfs_clean {g : Graph} {cdeps : List String} {tmp : String}
    (htmp : findThought g tmp = none) :
    ∀ fuel : Nat,
      (∀ n V S V', DFSInv g V S →
        dfsFuel g cdeps tmp fuel n V S = some V' →
        (∀ x ∈ V, x ∈ V') ∧ n ∈ V' ∧ n ∉ S ∧ DFSInv g V' S) ∧
      (∀ ds V S V', DFSInv g V S →
        dfsList (fun d V0 S0 => dfsFuel g cdeps tmp fuel d V0 S0) ds V S = some V' →
        (∀ x ∈ V, x ∈ V') ∧ DFSInv g V' S ∧ ∀ d ∈ ds, d ∈ V' ∧ d ∉ S) := by
  intro fuel
  induction fuel with
  | zero =>
    constructor
    · intro n V S V' _ h
      cases h
    · intro ds
      induction ds with
      | nil =>
        intro V S V' hinv h
        rw [dfsList_nil] at h
        cases h
        exact ⟨fun x hx => hx, hinv, fun d hd => absurd hd (List.not_mem_nil d)⟩
      | cons d ds ih =>
        intro V S V' hinv h
        rw [dfsList_cons_none rfl] at h
        cases h
  | succ fuel ih =>
    have h1 : ∀ n V S V', DFSInv g V S →
        dfsFuel g cdeps tmp (fuel + 1) n V S = some V' →
        (∀ x ∈ V, x ∈ V') ∧ n ∈ V' ∧ n ∉ S ∧ DFSInv g V' S := by
      intro n V S V' hinv h
      by_cases hs : n ∈ S
      · rw [dfsFuel_succ_stack hs] at h
        cases h
      · by_cases hv : n ∈ V
        · rw [dfsFuel_succ_visited hs hv] at h
          cases h
          exact ⟨fun x hx => hx, hv, hs, hinv⟩
        · rw [dfsFuel_succ_fresh hs hv] at h
          have hinv1 : DFSInv g (n :: V) (n :: S) := by
            intro x hx hxs
            have hxn : x ≠ n := fun he => hxs (he ▸ List.mem_cons_self n S)
            rcases List.mem_cons.mp hx with rfl | hx'
            · exact absurd rfl hxn
            · exact hinv x hx' fun hxS => hxs (List.mem_cons_of_mem n hxS)
          obtain ⟨hsub, hinv', hds⟩ := ih.2 (adjOf g cdeps tmp n) (n :: V) (n :: S)
            V' hinv1 h
          have hnV' : n ∈ V' := hsub n (List.mem_cons_self n V)
          refine ⟨fun x hx => hsub x (List.mem_cons_of_mem n hx), hnV', hs, ?_⟩
          intro x hx hxs
          by_cases hxn : x = n
          · subst hxn
            refine clean_of_deps fun m hm => ?_
            have hmadj : m ∈ adjOf g cdeps tmp x := dstep_mem_adj htmp hm
            obtain ⟨hmV', hmS⟩ := hds m hmadj
            exact hinv' m hmV' hmS
          · exact hinv' x hx fun hxS =>
              (List.mem_cons.mp hxS).elim (fun he => hxn he) hxs
    refine ⟨h1, ?_⟩
    intro ds
    induction ds with
    | nil =>
      intro V S V' hinv h
      rw [dfsList_nil] at h
      cases h
      exact ⟨fun x hx => hx, hinv, fun d hd => absurd hd (List.not_mem_nil d)⟩
    | cons d ds ihds =>
      intro V S V' hinv h
      cases hd : dfsFuel g cdeps tmp (fuel + 1) d V S with
      | none =>
        rw [dfsList_cons_none hd] at h
        cases h
      | some V1 =>
        rw [dfsList_cons_some hd] at h
        obtain ⟨hsub1, hdV1, hdS, hinv1⟩ := h1 d V S V1 hinv hd
        obtain ⟨hsub2, hinv2, hds2⟩ := ihds V1 S V' hinv1 h
        refine ⟨fun x hx => hsub2 x (hsub1 x hx), hinv2, ?_⟩
        intro d' hd'
        rcases List.mem_cons.mp hd' with rfl | hd''
        · exact ⟨hsub2 d' (by exact hdV1), hdS⟩
        · exact hds2 d' hd''

theorem validateDependencies_cycle {g : Graph} {deps : List String} {tmp : String}
    (hpresent : ∀ d ∈ deps, d ∈ graphIds g) (htmp : findThought g tmp = none)
    (hcyc : ∃ d ∈ deps, ReachesCycle g d) :
    validateDependencies g deps tmp = .error .cycleDetected := by
  have hfind : deps.find? (fun d => (findThought g d).isNone) = none := by
    rw [List.find?_eq_none]
    intro d hd
    have := findThought_isSome_of_mem_graphIds (hpresent d hd)
    simp [Option.isNone_iff_eq_none]
    exact Option.isSome_iff_ne_none.mp this
  have hdfs : dfsFuel g deps tmp (g.length + totalDeps g + deps.length + 2)
      tmp [] [] = none := by
    cases hres : dfsFuel g deps tmp (g.length + totalDeps g + deps.length + 2)
        tmp [] [] with
    | none => rfl
    | some V' =>
      exfalso
      rw [show g.length + totalDeps g + deps.length + 2 =
        (g.length + totalDeps g + deps.length + 1) + 1 from rfl] at hres
      rw [dfsFuel_succ_fresh (List.not_mem_nil tmp) (List.not_mem_nil tmp)] at hres
      have hadj : adjOf g deps tmp tmp = deps := by
        rw [adjOf, if_pos (by simp)]
      rw [hadj] at hres
      have hinv : DFSInv g [tmp] [tmp] := by
        intro x hx hxs
        rcases List.mem_singleton.mp hx with rfl
        exact absurd (List.mem_singleton.mpr rfl) hxs
      obtain ⟨_, hinv', hds⟩ :=
        (dfs_clean htmp (g.length + totalDeps g + deps.length + 1)).2 deps
          [tmp] [tmp] V' hinv hres
      obtain ⟨d, hd, hdcyc⟩ := hcyc
      obtain ⟨hdV, hdS⟩ := hds d hd
      exact hinv' d hdV hdS hdcyc
  simp only [validateDependencies, hfind, hdfs]

theorem validateDependencies_dangling {g : Graph} {deps : List String}
    (tmp : String) (h : ∃ d ∈ deps, findThought g d = none) :
    ∃ d ∈ deps, findThought g d = none ∧
      validateDependencies g deps tmp = .error (.dangling d) := by
  cases hfind : deps.find? (fun d => (findThought g d).isNone) with
  | none =>
    obtain ⟨d, hd, hdn⟩ := h
    have := List.find?_eq_none.mp hfind d hd
    rw [hdn] at this
    exact absurd rfl this
  | some d0 =>
    refine ⟨d0, List.mem_of_find?_eq_some hfind, ?_, ?_⟩
    · have := List.find?_some hfind
      simpa [Option.isNone_iff_eq_none] using this
    · simp only [validateDependencies, hfind]

/-- C5: an insertion attempt with a dependency id absent from the graph
fails with the dangling-dependency error (graph unchanged: no graph is
produced); an attempt whose dependency set reaches a dependency cycle among
existing nodes fails with the cycle error; the two failure kinds are
distinct constructors, hence distinguishable to callers. -/
theorem C5_insert_failures :
    (∀ (g : Graph) (input : LogInput) (tmp fid : String) (ts : ℤ),
      (∃ d ∈ input.dependencies, findThought g d = none) →
      ∃ d ∈ input.dependencies, findThought g d = none ∧
        handleLogThought g input tmp fid ts = .error (.dangling d)) ∧
    (∀ (g : Graph) (input : LogInput) (tmp fid : String) (ts : ℤ),
      (∀ d ∈ input.dependencies, d ∈ graphIds g) → findThought g tmp = none →
      (∃ d ∈ input.dependencies, ReachesCycle g d) →
      handleLogThought g input tmp fid ts = .error .cycleDetected) ∧
    (∀ d : String, DREError.dangling d ≠ DREError.cycleDetected) := by
  refine ⟨?_, ?_, fun d h => DREError.noConfusion h⟩
  · intro g input tmp fid ts h
    obtain ⟨d, hd, hdn, hval⟩ := validateDependencies_dangling tmp h
    exact ⟨d, hd, hdn, by simp only [handleLogThought, hval]⟩
  · intro g input tmp fid ts hpresent htmp hcyc
    have hval := validateDependencies_cycle hpresent htmp hcyc
    simp only [handleLogThought, hval]

/-- A two-node dependency cycle, as a raw graph value (not constructible
through the API, but a legitimate input of `validateDependencies`). -/
def cycG : Graph := [mkT "x" .evidence ["y"] .active, mkT "y" .evidence ["x"] .active]

/-- A log input whose dependency set reaches the cycle of `cycG`. -/
def cycInput : LogInput :=
  { thought := "z", thought_type := .synthesis, dependencies := ["x"],
    confidence := none, action_request := none }

/-- A log input with a dangling dependency id. -/
def dangInput : LogInput :=
  { thought := "z", thought_type := .synthesis, dependencies := ["nope"],
    confidence := none, action_request := none }

/-- C5 witness: both failure kinds at concrete inputs, via the theorem. -/
theorem C5_witness :
    (∃ d ∈ dangInput.dependencies, findThought chainG d = none ∧
      handleLogThought chainG dangInput "tmp" "f" 0 = .error (.dangling d)) ∧
    handleLogThought cycG cycInput "tmp" "f" 0 = .error .cycleDetected :=
  ⟨C5_insert_failures.1 chainG dangInput "tmp" "f" 0 ⟨"nope", by decide, rfl⟩,
   C5_insert_failures.2.1 cycG cycInput "tmp" "f" 0 (by decide) rfl
     ⟨"x", by decide,
       ⟨"x", Relation.ReflTransGen.refl,
         Relation.TransGen.head
           (show DStep cycG "x" "y" from
             ⟨mkT "x" .evidence ["y"] .active, rfl, by decide⟩)
           (Relation.TransGen.single
             (show DStep cycG "y" "x" from
               ⟨mkT "y" .evidence ["x"] .active, rfl, by decide⟩))⟩⟩⟩

/-! ### Claims C7 and C10: the token bucket -/

theorem checkLimit_allowed {b : Bucket} {now : ℤ} (clientId : String) {cost : ℚ}
    (h : cost ≤ (refillTokens b now).tokens) :
    (checkLimit b now clientId cost).1.allowed = true ∧
    (checkLimit b now clientId cost).1.retryAfter = none ∧
    (checkLimit b now clientId cost).2.tokens = (refillTokens b now).tokens - cost ∧
    (checkLimit b now clientId cost).2.lastRefill = now ∧
    (checkLimit b now clientId cost).2.maxTokens = b.maxTokens ∧
    (checkLimit b now clientId cost).2.refillRate = b.refillRate := by
  simp only [checkLimit]
  rw [if_pos h]
  exact ⟨rfl, rfl, rfl, rfl, rfl, rfl⟩

theorem checkLimit_denied {b : Bucket} {now : ℤ} (clientId : String) {cost : ℚ}
    (h : ¬ cost ≤ (refillTokens b now).tokens) :
    (checkLimit b now clientId cost).1.allowed = false ∧
    (checkLimit b now clientId cost).1.retryAfter =
      some ⌈(cost - (refillTokens b now).tokens) / b.refillRate * 1000⌉ ∧
    (checkLimit b now clientId cost).2.tokens = (refillTokens b now).tokens := by
  simp only [checkLimit]
  rw [if_neg h]
  exact ⟨rfl, rfl, rfl⟩

theorem refill_zero_elapsed {b : Bucket} {now : ℤ} (hlast : b.lastRefill = now)
    (hle : b.tokens ≤ b.maxTokens) : (refillTokens b now).tokens = b.tokens := by
  have hz : ((now - b.lastRefill : ℤ) : ℚ) / 1000 * b.refillRate = 0 := by
    rw [hlast]
    simp
  show min b.maxTokens (b.tokens + ((now - b.lastRefill : ℤ) : ℚ) / 1000 * b.refillRate)
    = b.tokens
  rw [hz, add_zero]
  exact min_eq_right hle

theorem iterCheck_conserve {now : ℤ} {clientId : String} :
    ∀ (N : Nat) (b : Bucket), b.lastRefill = now → b.tokens ≤ b.maxTokens →
      (iterCheck now clientId N b).2 = true →
      (iterCheck now clientId N b).1.tokens = b.tokens - N := by
  intro N
  induction N with
  | zero =>
    intro b _ _ _
    simp [iterCheck]
  | succ n ih =>
    intro b hlast hle hall
    have hrefill : (refillTokens b now).tokens = b.tokens := refill_zero_elapsed hlast hle
    simp only [iterCheck, Bool.and_eq_true] at hall ⊢
    obtain ⟨hallow, hrest⟩ := hall
    have hcost : (1 : ℚ) ≤ (refillTokens b now).tokens := by
      by_contra hnot
      have hfalse := (checkLimit_denied clientId hnot).1
      rw [hallow] at hfalse
      cases hfalse
    obtain ⟨-, -, htok, hlast2, hmax2, -⟩ := checkLimit_allowed clientId hcost
    have hb2tok : (checkLimit b now clientId 1).2.tokens = b.tokens - 1 := by
      rw [htok, hrefill]
    have hb2le : (checkLimit b now clientId 1).2.tokens ≤
        (checkLimit b now clientId 1).2.maxTokens := by
      rw [hb2tok, hmax2]
      linarith
    have hres := ih (checkLimit b now clientId 1).2 hlast2 hb2le hrest
    rw [hres, hb2tok]
    push_cast
    ring

/-- C7: `checkLimit` first refills the bucket to
`min(capacity, tokens + elapsedSeconds * refillRate)`; when the refilled
count is at least `cost` the call is allowed and exactly `cost` tokens are
deducted, otherwise it is denied with
`retryAfter = ceil((cost - tokens) / refillRate * 1000)` milliseconds and
no deduction; and after `N` consecutive all-allowed cost-1 calls at zero
elapsed time on a fresh bucket, the remaining tokens equal
`capacity - N`. -/
theorem C7_token_bucket :
    (∀ (b : Bucket) (now : ℤ) (clientId : String) (cost : ℚ),
      (refillTokens b now).tokens =
        min b.maxTokens
          (b.tokens + ((now - b.lastRefill : ℤ) : ℚ) / 1000 * b.refillRate) ∧
      (cost ≤ (refillTokens b now).tokens →
        (checkLimit b now clientId cost).1.allowed = true ∧
        (checkLimit b now clientId cost).2.tokens =
          (refillTokens b now).tokens - cost) ∧
      (¬ cost ≤ (refillTokens b now).tokens →
        (checkLimit b now clientId cost).1.allowed = false ∧
        (checkLimit b now clientId cost).1.retryAfter =
          some ⌈(cost - (refillTokens b now).tokens) / b.refillRate * 1000⌉ ∧
        (checkLimit b now clientId cost).2.tokens = (refillTokens b now).tokens)) ∧
    (∀ (cfg : RateLimitConfig) (now : ℤ) (clientId : String) (N : Nat),
      (iterCheck now clientId N (mkBucket cfg now)).2 = true →
      (iterCheck now clientId N (mkBucket cfg now)).1.tokens = cfg.maxTokens - N) := by
  constructor
  · intro b now clientId cost
    refine ⟨rfl, fun h => ?_, fun h => ?_⟩
    · obtain ⟨h1, -, h3, -⟩ := checkLimit_allowed clientId h
      exact ⟨h1, h3⟩
    · exact checkLimit_denied clientId h
  · intro cfg now clientId N hall
    exact iterCheck_conserve N (mkBucket cfg now) rfl (le_refl _) hall

/-- C7 witness: two allowed cost-1 calls at zero elapsed time on a fresh
capacity-3 bucket leave 3 - 2 tokens. -/
theorem C7_witness :
    (iterCheck 0 "d" 2 (mkBucket ⟨3, 1, none⟩ 0)).1.tokens =
      (⟨3, 1, none⟩ : RateLimitConfig).maxTokens - (2 : Nat) :=
  C7_token_bucket.2 ⟨3, 1, none⟩ 0 "d" 2 (by
    have hl : (mkBucket (⟨3, 1, none⟩ : RateLimitConfig) 0).lastRefill = 0 := rfl
    have hle : (mkBucket (⟨3, 1, none⟩ : RateLimitConfig) 0).tokens ≤
        (mkBucket (⟨3, 1, none⟩ : RateLimitConfig) 0).maxTokens := le_refl _
    have hr0 : (refillTokens (mkBucket ⟨3, 1, none⟩ 0) 0).tokens = 3 := by
      rw [refill_zero_elapsed hl hle]
      rfl
    have h0 : (1 : ℚ) ≤ (refillTokens (mkBucket ⟨3, 1, none⟩ 0) 0).tokens := by
      rw [hr0]
      norm_num
    obtain ⟨ha0, -, ht0, hl0, hm0, -⟩ := checkLimit_allowed "d" h0
    have ht0' : (checkLimit (mkBucket ⟨3, 1, none⟩ 0) 0 "d" 1).2.tokens = 2 := by
      rw [ht0, hr0]
      norm_num
    have hr1 :
        (refillTokens (checkLimit (mkBucket ⟨3, 1, none⟩ 0) 0 "d" 1).2 0).tokens
          = 2 := by
      rw [refill_zero_elapsed hl0 (by rw [ht0', hm0]; norm_num [mkBucket]), ht0']
    have h1 : (1 : ℚ) ≤
        (refillTokens (checkLimit (mkBucket ⟨3, 1, none⟩ 0) 0 "d" 1).2 0).tokens := by
      rw [hr1]
      norm_num
    obtain ⟨ha1, -, -, -, -, -⟩ := checkLimit_allowed "d" h1
    show (iterCheck 0 "d" 2 (mkBucket ⟨3, 1, none⟩ 0)).2 = true
    simp only [iterCheck]
    rw [ha0, ha1]
    rfl)

/-- C10: the caller identity never influences admission: for the same
bucket state, `checkLimit` returns the same allowed/retryAfter/remaining
result for any two client ids and leaves the token count, refill timestamp
and configuration identical — the client id only keys the observational
per-window request counter. -/
theorem C10_shared_pool (b : Bucket) (now : ℤ) (c1 c2 : String) (cost : ℚ) :
    (checkLimit b now c1 cost).1 = (checkLimit b now c2 cost).1 ∧
    (checkLimit b now c1 cost).2.tokens = (checkLimit b now c2 cost).2.tokens ∧
    (checkLimit b now c1 cost).2.lastRefill = (checkLimit b now c2 cost).2.lastRefill ∧
    (checkLimit b now c1 cost).2.maxTokens = (checkLimit b now c2 cost).2.maxTokens ∧
    (checkLimit b now c1 cost).2.refillRate = (checkLimit b now c2 cost).2.refillRate ∧
    (checkLimit b now c1 cost).2.windowMs = (checkLimit b now c2 cost).2.windowMs := by
  simp only [checkLimit]
  by_cases h : cost ≤ (refillTokens b now).tokens
  · rw [if_pos h, if_pos h]
    exact ⟨rfl, rfl, rfl, rfl, rfl, rfl⟩
  · rw [if_neg h, if_neg h]
    exact ⟨rfl, rfl, rfl, rfl, rfl, rfl⟩

/-! ### Claims C8 and C9: the query engine -/

/-- C8: when the offset is at least the number of matching thoughts the
query returns an empty page while reporting the same total (and cannot
fail: `handleQueryThoughts` is a total function); pagination is applied
only after filter and sort: the reported total is independent of offset
and limit. -/
theorem C8_pagination_bound {g : Graph} {q : QueryInput}
    (h : (handleQueryThoughts g q).total_results ≤ q.offset) :
    (handleQueryThoughts g q).results = [] ∧
    ∀ offset' limit' : Nat,
      (handleQueryThoughts g
          { q with offset := offset', limit := limit' }).total_results =
        (handleQueryThoughts g q).total_results := by
  constructor
  · have h' : (sortThoughts q.query_type (filterThoughts g q)).length ≤ q.offset := h
    show (((sortThoughts q.query_type (filterThoughts g q)).drop q.offset).take
      q.limit).map (enrich g) = []
    rw [List.drop_eq_nil_of_le h']
    simp
  · intro o l
    rfl

/-- The query input with every filter off, default sort, limit 20. -/
def defaultQ : QueryInput :=
  { query_type := .recent, thought_type := none, dependency_of := none,
    depends_on := none, content_search := none, min_confidence := none,
    max_confidence := none, status := none, limit := 20, offset := 0 }

/-- C8 witness: on the concrete chain graph with offset 10 past the 4
matching thoughts, the page is empty and the total is offset/limit
independent. -/
theorem C8_witness :
    (handleQueryThoughts chainG { defaultQ with offset := 10 }).results = [] ∧
    ∀ offset' limit' : Nat,
      (handleQueryThoughts chainG
          { { defaultQ with offset := 10 } with
            offset := offset', limit := limit' }).total_results =
        (handleQueryThoughts chainG { defaultQ with offset := 10 }).total_results :=
  C8_pagination_bound (by
    show (sortThoughts QueryType.recent
      (filterThoughts chainG { defaultQ with offset := 10 })).length ≤ 10
    rw [sortThoughts, List.length_mergeSort]
    decide)

/-- C9 (amended): a query whose `dependency_of` filter names a nonempty id
absent from the graph succeeds with `total_matching = 0` and an empty
result list, regardless of all other filters.  The empty string — also
schema-valid and absent from every graph, since generated ids are
nonempty — is falsy in JS, so `if (input.dependency_of)` skips the filter
instead and the other-filter matches are returned. -/
theorem C9_dependency_of_absent {g : Graph} {q : QueryInput} {x : String}
    (hq : q.dependency_of = some x) (hne : x ≠ "")
    (hx : findThought g x = none) :
    (handleQueryThoughts g q).total_results = 0 ∧
    (handleQueryThoughts g q).results = [] := by
  have hfilter : filterThoughts g q = [] := by
    simp only [filterThoughts, hq, hx]
    rw [if_neg hne]
    cases q.depends_on <;> simp
  constructor
  · show (sortThoughts q.query_type (filterThoughts g q)).length = 0
    rw [sortThoughts, List.length_mergeSort, hfilter]
    rfl
  · show (((sortThoughts q.query_type (filterThoughts g q)).drop q.offset).take
      q.limit).map (enrich g) = []
    rw [sortThoughts, hfilter, List.mergeSort_nil]
    simp

/-- The query asking for dependencies of the empty-string id, all other
filters off. -/
def q9empty : QueryInput := { defaultQ with dependency_of := some "" }

/-- C9 counterexample: on the four-thought chain graph, the query whose
`dependency_of` names the absent id `""` reports `total_matching = 4`, not
0 — the truthiness guard at index.ts:826 skips the filter — refuting the
claim as stated for every absent id. -/
theorem C9_counterexample :
    q9empty.dependency_of = some "" ∧ findThought chainG "" = none ∧
    (handleQueryThoughts chainG q9empty).total_results = 4 ∧
    ¬ (handleQueryThoughts chainG q9empty).total_results = 0 := by
  have htot : (handleQueryThoughts chainG q9empty).total_results = 4 := by
    show (sortThoughts QueryType.recent (filterThoughts chainG q9empty)).length = 4
    rw [sortThoughts, List.length_mergeSort]
    decide
  refine ⟨rfl, rfl, htot, ?_⟩
  rw [htot]
  decide

/-- C9 witness: querying the chain graph for dependencies of the absent
nonempty id "zz" yields total 0 and no results. -/
theorem C9_witness :
    (handleQueryThoughts chainG { defaultQ with dependency_of := some "zz" }).total_results
        = 0 ∧
      (handleQueryThoughts chainG
        { defaultQ with dependency_of := some "zz" }).results = [] :=
  C9_dependency_of_absent rfl (by decide) rfl

end DRE

